import Mathlib

/-!
# Verification of the zeek-tsv reader (Go package `tsv`)

Shallow embedding of the repository's current code:
* the byte-stream field splitter `Parser` (file `src/unnamed/part_001`:
  `NewParser`, `NewSeekableParser`, `Parser.Read`, `Parser.Current`,
  `Parser.ResetRow`, `Parser.Seek`),
* the header parser and value conversion layer (`src/reader.go`:
  `readHeader`, `readFieldType`, `Reader.readValue`, the `ValueConverters`
  table and the converter functions, `Reader.Read`, `Reader.Offset`,
  `Reader.Seek`),
* the lazy reader (`src/unnamed/part_002` first snapshot: `LazyReader.Read`,
  `LazyReader.Offset`, `LazyReader.Seek`) and the lazy record
  (`src/lazy_record.go`: `LazyRecord.BytesByIndex`, `LazyRecord.ValueByIndex`).

Modelling conventions:
* A byte is a `Nat` (< 256 for real inputs; no arithmetic overflows a byte
  here, bytes are only compared for equality).
* Go's `bufio.Reader.ReadBytes('\n')` over an in-memory stream is modelled by
  a stream content `data : List Nat` plus a cursor `pos`; a read takes the
  prefix of `data.drop pos` up to and including the first `'\n'` (byte 10)
  and reports end-of-file when no `'\n'` is found.
* Go runtime panics (out-of-range index or slice) are modelled by the
  explicit error value `Err.panic`; the code itself never constructs it.
* Go `float64` values produced by `strconv.ParseFloat` are modelled as exact
  decimal rationals; the claims checked here only involve decimals that are
  exactly representable, where the two agree.
* `interface{}` values are modelled by the inductive `Value`; a Go `nil`
  interface (an absent column) is `Option.none`.
-/

namespace ZeekTsv

/-- A byte of the input stream. -/
abbrev Byte := Nat

/-- A byte string (Go `[]byte`). -/
abbrev Bytes := List Nat

/-- Bytes of an ASCII string literal (used for the byte constants the Go
code writes as string literals, e.g. `"#close"`). -/
def bs (s : String) : Bytes := s.toList.map Char.toNat

/-- The newline byte `'\n'`. -/
def NL : Byte := 10

/-- The carriage-return byte `'\r'`. -/
def CR : Byte := 13

/-- The hash byte `'#'`. -/
def HASH : Byte := 35

/-- The tab byte `'\t'`, the parser's default delimiter. -/
def TAB : Byte := 9

/-- Go `bytes.HasPrefix`. -/
def hasPrefix (b pre : Bytes) : Bool := b.take pre.length = pre

/-- The segment `bufio.Reader.ReadBytes('\n')` returns from the remaining
stream: everything up to and including the first newline, or the whole
remainder when no newline is left. -/
def takeLine : Bytes → Bytes
  | [] => []
  | c :: cs => if c = NL then [NL] else c :: takeLine cs

/-- Go `bytes.Count(line, []byte{d})` for a single byte `d`. -/
def countByte (l : Bytes) (d : Byte) : Nat := (l.filter (fun c => c = d)).length

/-- The delimiter loop of `Parser.Read`: the segments before each delimiter
occurrence, together with the trailing bytes after the last delimiter
(`line[start:]` for the final value of `start`). -/
def splitSegs (d : Byte) : Bytes → List Bytes × Bytes
  | [] => ([], [])
  | c :: cs =>
    let r := splitSegs d cs
    if c = d then ([] :: r.1, r.2)
    else
      match r.1 with
      | [] => ([], c :: r.2)
      | s :: ss => ((c :: s) :: ss, r.2)

/-- Indexing `line[i]` with a possibly negative Go index; `none` is the
out-of-range panic. -/
def lineGet (l : Bytes) (i : Int) : Option Byte :=
  if h : 0 ≤ i ∧ i.toNat < l.length then some (l.get ⟨i.toNat, h.2⟩) else none

/-- The final-column computation of `Parser.Read`:

```go
end := len(line) - 1
if line[end] == '\n' { end-- }
if line[end] == '\r' { end-- }
p.row[n] = line[start : end+1]
```

`none` models the two possible runtime panics: indexing `line[end]` with
`end` out of range, and slicing with `start > end+1`. -/
def finalCol (line : Bytes) (start : Nat) : Option Bytes :=
  let e0 : Int := (line.length : Int) - 1
  match lineGet line e0 with
  | none => none
  | some c0 =>
    let e1 : Int := if c0 = NL then e0 - 1 else e0
    match lineGet line e1 with
    | none => none
    | some c1 =>
      let e2 : Int := if c1 = CR then e1 - 1 else e1
      if (start : Int) ≤ e2 + 1 then
        some ((line.drop start).take ((e2 + 1 - (start : Int)).toNat))
      else none

/-- The column-splitting phase of `Parser.Read`: write the delimiter-separated
segments of `line` into the row buffer `buf` at indices `0..`, then the
stripped final column at the next index.  Entries of `buf` beyond the written
prefix keep their previous values (the Go code mutates a reused slice).
`none` models the runtime panic of a write past `len(buf)` (and the
final-column panics of `finalCol`). -/
def splitInto (line : Bytes) (d : Byte) (buf : List Bytes) : Option (List Bytes) :=
  let r := splitSegs d line
  let start := line.length - r.2.length
  match finalCol line start with
  | none => none
  | some fin =>
    if r.1.length + 1 ≤ buf.length then
      some (r.1 ++ fin :: buf.drop (r.1.length + 1))
    else none

/-- Errors and non-error signals surfaced by the package, plus the modelled
runtime panic.  Mirrors `errors.go` (`ErrTruncatedLine`,
`ErrInvalidSeparator`, `ErrSeekingUnsupported`, `ErrorInvalidFieldType`),
`lazy_record.go` (`ErrNoSuchField`), `io.EOF`, and the `error` results of the
`strconv` parse functions (`convError`). -/
inductive Err where
  | truncatedLine
  | invalidSeparator
  | seekingUnsupported
  | invalidFieldType (name : Bytes)
  | noSuchField (name : Bytes)
  | eof
  | convError
  | panic
  deriving DecidableEq, Repr

/-- The field splitter state (`Parser` of `src/unnamed/part_001`).  The
`bufio.Reader` over an in-memory stream is modelled by `data` plus the
cursor `pos`; `fh` records whether the parser was built over a seeker. -/
structure Parser where
  delimiter : Byte
  data : Bytes
  pos : Nat
  fh : Bool
  row : List Bytes
  n : Nat
  offset : Nat
  deriving DecidableEq, Repr

/-- `NewParser`: a fresh non-seekable parser over a stream. -/
def NewParser (data : Bytes) : Parser :=
  { delimiter := TAB, data := data, pos := 0, fh := false
    row := [], n := 0, offset := 0 }

/-- `NewSeekableParser`: a fresh seekable parser over a stream. -/
def NewSeekableParser (data : Bytes) : Parser :=
  { NewParser data with fh := true }

/-- `Parser.Read`.  Returns the Go `(Row, error)` pair (as an `Except`)
together with the successor parser state. -/
def Parser.Read (p : Parser) : Except Err (List Bytes) × Parser :=
  let line := takeLine (p.data.drop p.pos)
  let p1 := { p with pos := p.pos + line.length }
  if line.getLast? = some NL then
    -- success branch of ReadBytes: the line is newline-terminated
    let p2 := { p1 with offset := p1.offset + line.length }
    let nn := if p2.n = 0 then countByte line p2.delimiter + 1 else p2.n
    let buf := if p2.n = 0 then List.replicate (countByte line p2.delimiter + 1) ([] : Bytes)
               else p2.row
    match splitInto line p2.delimiter buf with
    | none => (.error .panic, { p2 with n := nn, row := buf })
    | some w => (.ok w, { p2 with n := nn, row := w })
  else
    -- ReadBytes returned io.EOF together with the unterminated remainder
    if line ≠ [] ∧ ¬ hasPrefix line (bs "#") then (.error .truncatedLine, p1)
    else (.error .eof, p1)

/-- `Parser.Current`. -/
def Parser.Current (p : Parser) : List Bytes := p.row

/-- `Parser.ResetRow`. -/
def Parser.ResetRow (p : Parser) : Parser := { p with n := 0 }

/-- `Parser.Seek`: reposition the underlying stream and reset the buffered
reader.  Note: it touches neither `n` nor `row` nor `offset`. -/
def Parser.Seek (p : Parser) (off : Nat) : Except Err Parser :=
  if p.fh then .ok { p with pos := off } else .error .seekingUnsupported

theorem takeLine_length_le (l : Bytes) : (takeLine l).length ≤ l.length := by
  induction l with
  | nil => simp [takeLine]
  | cons c cs ih =>
    by_cases hc : c = NL
    · simp [takeLine, hc]
    · simpa [takeLine, hc] using ih

theorem takeLine_ne_nil {l : Bytes} (h : l ≠ []) : takeLine l ≠ [] := by
  cases l with
  | nil => exact absurd rfl h
  | cons c cs => by_cases hc : c = NL <;> simp [takeLine, hc]

/-- Characterization of a successful `Parser.Read`. -/
theorem Parser.Read_ok_iff (p : Parser) (row : List Bytes) (p' : Parser) :
    p.Read = (.ok row, p') ↔
      (takeLine (p.data.drop p.pos)).getLast? = some NL ∧
      splitInto (takeLine (p.data.drop p.pos)) p.delimiter
        (if p.n = 0 then
            List.replicate (countByte (takeLine (p.data.drop p.pos)) p.delimiter + 1) ([] : Bytes)
          else p.row) = some row ∧
      p' = { p with
              pos := p.pos + (takeLine (p.data.drop p.pos)).length,
              offset := p.offset + (takeLine (p.data.drop p.pos)).length,
              n := if p.n = 0 then countByte (takeLine (p.data.drop p.pos)) p.delimiter + 1
                   else p.n,
              row := row } := by
  by_cases hnl : (takeLine (p.data.drop p.pos)).getLast? = some NL
  · rcases hs : splitInto (takeLine (p.data.drop p.pos)) p.delimiter
        (if p.n = 0 then
            List.replicate (countByte (takeLine (p.data.drop p.pos)) p.delimiter + 1) ([] : Bytes)
          else p.row) with _ | w
    · simp [Parser.Read, hnl, hs]
    · simp only [Parser.Read, hnl, if_true, hs, Prod.mk.injEq, Except.ok.injEq,
        Option.some.injEq, true_and]
      constructor
      · rintro ⟨rfl, rfl⟩
        exact ⟨rfl, rfl⟩
      · rintro ⟨rfl, rfl⟩
        exact ⟨rfl, rfl⟩
  · simp only [Parser.Read, hnl, if_false]
    split <;> simp [hnl]

theorem Parser.Read_ok_state {p : Parser} {row : List Bytes} {p' : Parser}
    (h : p.Read = (.ok row, p')) :
    p'.data = p.data ∧ p.pos < p'.pos ∧ p'.pos ≤ p.data.length ∧
      p'.delimiter = p.delimiter ∧ p'.fh = p.fh ∧ p'.row = row := by
  rw [Parser.Read_ok_iff] at h
  obtain ⟨hnl, _, rfl⟩ := h
  have h1 : takeLine (p.data.drop p.pos) ≠ [] := by
    intro hn; rw [hn] at hnl; simp at hnl
  have h2 : 0 < (takeLine (p.data.drop p.pos)).length := List.length_pos.mpr h1
  have h3 : (takeLine (p.data.drop p.pos)).length ≤ p.data.length - p.pos := by
    have := takeLine_length_le (p.data.drop p.pos)
    simpa using this
  have h4 : p.pos < p.data.length := by
    by_contra hc
    exact h1 (by rw [List.drop_eq_nil_of_le (by omega)]; rfl)
  refine ⟨rfl, ?_, ?_, rfl, rfl, rfl⟩ <;> (dsimp only; omega)

/-! ## Header parsing (`src/reader.go`) -/

/-- The first occurrence of `sep` in `s`: `some (before, after)`, or `none`
when `sep` does not occur (for nonempty `sep`). -/
def splitFirst (s sep : Bytes) : Option (Bytes × Bytes) :=
  if hasPrefix s sep then some ([], s.drop sep.length)
  else
    match s with
    | [] => none
    | c :: cs => (splitFirst cs sep).map (fun r => (c :: r.1, r.2))

theorem splitFirst_length {s sep b a : Bytes} (hsep : sep ≠ [])
    (h : splitFirst s sep = some (b, a)) : a.length < s.length := by
  induction s generalizing b with
  | nil =>
    rw [splitFirst] at h
    split at h
    · next hp =>
      have hps : ([] : Bytes) = sep := by simpa [hasPrefix] using hp
      exact absurd hps.symm hsep
    · simp at h
  | cons c cs ih =>
    rw [splitFirst] at h
    split at h
    · next hp =>
      injection h with h
      cases h
      have : 0 < sep.length := List.length_pos.mpr hsep
      simp only [List.length_drop, List.length_cons]
      omega
    · rcases hs : splitFirst cs sep with _ | ⟨b', a'⟩ <;> rw [hs] at h <;> simp at h
      obtain ⟨-, rfl⟩ := h
      exact Nat.lt_succ_of_lt (ih hs)

/-- Go `bytes.Split(s, sep)`.  For empty `sep`, Go splits after each UTF-8
rune; the inputs in this package are ASCII, where that is one element per
byte. -/
def bsplit (s sep : Bytes) : List Bytes :=
  if hsep : sep = [] then s.map (fun c => [c])
  else
    match hs : splitFirst s sep with
    | none => [s]
    | some (b, a) => b :: bsplit a sep
termination_by s.length
decreasing_by exact splitFirst_length hsep hs

/-- A single hexadecimal digit's value. -/
def hexDigit (c : Byte) : Option Nat :=
  if 48 ≤ c ∧ c ≤ 57 then some (c - 48)
  else if 97 ≤ c ∧ c ≤ 102 then some (c - 87)
  else if 65 ≤ c ∧ c ≤ 70 then some (c - 55)
  else none

/-- Go `hex.DecodeString`: pairs of hex digits; odd length or an invalid
digit is an error. -/
def hexDecode : Bytes → Option Bytes
  | [] => some []
  | [_] => none
  | a :: b :: r =>
    match hexDigit a, hexDigit b, hexDecode r with
    | some x, some y, some t => some ((16 * x + y) :: t)
    | _, _, _ => none

/-- `DataType`, the enum of zeek data types (`reader.go`). -/
inductive DataType where
  | String | Time | Addr | Port | Int | Double | Count | Interval | Bool | Enum | Subnet
  deriving DecidableEq, Repr

/-- `FieldType` (`reader.go`).  The Go field `Type` is called `dtype` here
because `Type` is reserved in Lean. -/
structure FieldType where
  dtype : DataType
  IsContainer : Bool
  deriving DecidableEq, Repr

instance : Inhabited FieldType := ⟨⟨.String, false⟩⟩

/-- The `dataTypeLookup` map from `#types` names to `DataType`s. -/
def dataTypeLookup (s : Bytes) : Option DataType :=
  if s = bs "string" then some .String
  else if s = bs "time" then some .Time
  else if s = bs "addr" then some .Addr
  else if s = bs "port" then some .Port
  else if s = bs "int" then some .Int
  else if s = bs "double" then some .Double
  else if s = bs "count" then some .Count
  else if s = bs "interval" then some .Interval
  else if s = bs "bool" then some .Bool
  else if s = bs "enum" then some .Enum
  else if s = bs "subnet" then some .Subnet
  else none

/-- `readFieldType` (`reader.go`): bracket notation `base[inner]` marks a
container.  A name ending in `]` with no `[` makes the Go code slice
`s[start:]` with `start = -1`, a runtime panic. -/
def readFieldType (s : Bytes) : Except Err FieldType :=
  if s.getLast? = some 93 then
    match s.findIdx? (fun c => c = 91) with
    | none => .error .panic
    | some st =>
      match (s.drop st).findIdx? (fun c => c = 93) with
      | none => .error .panic
      | some e =>
        if 1 ≤ e then
          let inner := (s.drop (st + 1)).take (e - 1)
          match dataTypeLookup inner with
          | some d => .ok ⟨d, true⟩
          | none => .error (.invalidFieldType inner)
        else .error .panic
  else
    match dataTypeLookup s with
    | some d => .ok ⟨d, false⟩
    | none => .error (.invalidFieldType s)

/-- `Header` (`reader.go`).  Field defaults are the Go zero values of
`Header{}`. -/
structure Header where
  Separator : Byte := 0
  Fields : List Bytes := []
  Types : List FieldType := []
  Unset : Bytes := []
  Empty : Bytes := []
  SetSeparator : Bytes := []
  Path : Bytes := []
  Length : Nat := 0
  deriving DecidableEq, Repr

instance : Inhabited Header := ⟨{}⟩

/-- The `#separator` directive's processing inside `readHeader`:

```go
parts := bytes.Split(row[0], []byte(" "))
encodedSeparator := parts[1]
sep, err := hex.DecodeString(string(encodedSeparator[2:]))
if err != nil { return nil, ErrInvalidSeparator }
header.Separator = sep[0]
```

`parts[1]` on a one-element split, `encodedSeparator[2:]` on fewer than two
bytes, and `sep[0]` on an empty decode are runtime panics. -/
def parseSeparator (r0 : Bytes) : Except Err Byte :=
  match (bsplit r0 (bs " ")).get? 1 with
  | none => .error .panic
  | some enc =>
    if enc.length < 2 then .error .panic
    else
      match hexDecode (enc.drop 2) with
      | none => .error .invalidSeparator
      | some sep =>
        match sep.head? with
        | none => .error .panic
        | some s0 => .ok s0

/-- One directive row's effect on the header being built (the body of the
`readHeader` loop after the `#`-prefix test).  `kt` is the caller's
`keyTransform`. -/
def applyDirective (kt : Option (Bytes → Bytes)) (h : Header) (row : List Bytes)
    (r0 : Bytes) : Except Err Header :=
  if hasPrefix r0 (bs "#separator") then
    (parseSeparator r0).map (fun s0 => { h with Separator := s0 })
  else if r0 = bs "#set_separator" then
    match row.get? 1 with
    | none => .error .panic
    | some v => .ok { h with SetSeparator := h.SetSeparator ++ v }
  else if r0 = bs "#unset_field" then
    match row.get? 1 with
    | none => .error .panic
    | some v => .ok { h with Unset := h.Unset ++ v }
  else if r0 = bs "#empty_field" then
    match row.get? 1 with
    | none => .error .panic
    | some v => .ok { h with Empty := h.Empty ++ v }
  else if r0 = bs "#fields" then
    .ok { h with Fields := h.Fields ++ (row.drop 1).map (fun f =>
            match kt with
            | some t => t f
            | none => f) }
  else if r0 = bs "#types" then
    ((row.drop 1).mapM readFieldType).map (fun ts => { h with Types := h.Types ++ ts })
  else if r0 = bs "#path" then
    match row.get? 1 with
    | none => .error .panic
    | some v => .ok { h with Path := v }
  else .ok h

/-- The `readHeader` loop (`reader.go`): set `Length` to the current offset,
read a row, reset the column-count latch, consume directive rows until the
first row whose first column does not begin with `#`.

The `fuel` argument only makes the recursion structural so that concrete
runs reduce definitionally; each successful read consumes at least one byte
of the stream, so with the initial fuel of `readHeader` (more than the
remaining bytes) the fuel can never reach `0`
(`readHeaderLoop_fuel_sufficient`). -/
def readHeaderLoop (kt : Option (Bytes → Bytes)) (h : Header) (p : Parser) :
    Nat → Except Err (Header × Parser)
  | 0 => .error .panic
  | fuel + 1 =>
    let h1 := { h with Length := p.offset }
    match p.Read with
    | (.error e, _) => .error e
    | (.ok row, p') =>
      let p2 := p'.ResetRow
      match row.head? with
      | none => .error .panic
      | some r0 =>
        if ¬ hasPrefix r0 (bs "#") then .ok (h1, p2)
        else
          match applyDirective kt h1 row r0 with
          | .error e => .error e
          | .ok h2 => readHeaderLoop kt h2 p2 fuel

/-- `readHeader` (`reader.go`). -/
def readHeader (p : Parser) (kt : Option (Bytes → Bytes)) : Except Err (Header × Parser) :=
  readHeaderLoop kt {} p (p.data.length + 1 - p.pos)

/-! ## Value converters (`src/reader.go`) -/

/-- A typed value (Go `interface{}` results of the converters).  A `float64`
parsed from decimal text is represented exactly as `vf64 m e`, meaning
`m * 10 ^ e`; the claims below only involve decimals on which this agrees
with IEEE-754 `strconv.ParseFloat`. -/
inductive Value where
  | vstr (b : Bytes)
  | vu16 (n : Nat)
  | vu64 (n : Nat)
  | vi64 (i : Int)
  | vf64 (m : Int) (e : Int)
  | vbool (b : Bool)
  | vlist (l : List Value)

/-- The exact rational a `vf64 m e` denotes. -/
def f64Denotes (m e : Int) : ℚ := (m : ℚ) * 10 ^ e

/-- ASCII decimal digit test. -/
def isDigit (c : Byte) : Bool := 48 ≤ c && c ≤ 57

/-- Value of a digit string (most significant first). -/
def digitsVal (l : Bytes) : Nat := l.foldl (fun a c => a * 10 + (c - 48)) 0

/-- Go `strconv.ParseUint(s, 10, bitSize)`: decimal digits only (no sign),
error on empty input, a non-digit, or a value needing more than `bitSize`
bits.  (Go also returns the clamped value alongside the range error; every
caller in this package discards the value on error.) -/
def ParseUint (b : Bytes) (bitSize : Nat) : Option Nat :=
  if b ≠ [] ∧ b.all isDigit then
    if digitsVal b < 2 ^ bitSize then some (digitsVal b) else none
  else none

/-- Go `strconv.ParseInt(s, 10, 64)`: optional sign, then digits, range
`[-2^63, 2^63-1]`. -/
def ParseInt (b : Bytes) : Option Int :=
  let sd : Bool × Bytes :=
    match b with
    | 43 :: t => (false, t)
    | 45 :: t => (true, t)
    | _ => (false, b)
  if sd.2 ≠ [] ∧ sd.2.all isDigit then
    if sd.1 then
      if digitsVal sd.2 ≤ 2 ^ 63 then some (-(digitsVal sd.2 : Int)) else none
    else
      if digitsVal sd.2 < 2 ^ 63 then some (digitsVal sd.2 : Int) else none
  else none

/-- Go `strconv.ParseFloat(s, 64)` on plain decimal input
`[sign] digits [. digits] [(e|E) [sign] digits]` (with at least one mantissa
digit), as the exact pair `(mantissa, decimal exponent)`.  The special forms
Go additionally accepts (`Inf`, `NaN`, hex floats, underscores) are not
produced by this log format and are modelled as parse errors. -/
def ParseFloat (b : Bytes) : Option (Int × Int) :=
  let sr : Int × Bytes :=
    match b with
    | 43 :: t => (1, t)
    | 45 :: t => (-1, t)
    | _ => (1, b)
  let ip := sr.2.takeWhile isDigit
  let r2 := sr.2.dropWhile isDigit
  let fr : Bytes × Bytes :=
    match r2 with
    | 46 :: t => (t.takeWhile isDigit, t.dropWhile isDigit)
    | _ => ([], r2)
  if ip = [] ∧ fr.1 = [] then none
  else
    let mant : Int := sr.1 * (digitsVal (ip ++ fr.1) : Int)
    match fr.2 with
    | [] => some (mant, -(fr.1.length : Int))
    | e :: t =>
      if e = 101 ∨ e = 69 then
        let ed : Bool × Bytes :=
          match t with
          | 43 :: u => (false, u)
          | 45 :: u => (true, u)
          | _ => (false, t)
        if ed.2 ≠ [] ∧ ed.2.all isDigit then
          some (mant, (if ed.1 then -(digitsVal ed.2 : Int) else (digitsVal ed.2 : Int))
                        - (fr.1.length : Int))
        else none
      else none

/-- `ToString`. -/
def ToString (b : Bytes) : Except Err Value := .ok (.vstr b)

/-- `ToUint16`. -/
def ToUint16 (b : Bytes) : Except Err Value :=
  match ParseUint b 16 with
  | some v => .ok (.vu16 v)
  | none => .error .convError

/-- `ToUint64`. -/
def ToUint64 (b : Bytes) : Except Err Value :=
  match ParseUint b 64 with
  | some v => .ok (.vu64 v)
  | none => .error .convError

/-- `ToInt64`. -/
def ToInt64 (b : Bytes) : Except Err Value :=
  match ParseInt b with
  | some v => .ok (.vi64 v)
  | none => .error .convError

/-- `ToFloat64`. -/
def ToFloat64 (b : Bytes) : Except Err Value :=
  match ParseFloat b with
  | some v => .ok (.vf64 v.1 v.2)
  | none => .error .convError

/-- `ToBool`: true iff the bytes equal `"T"`, never an error. -/
def ToBool (b : Bytes) : Except Err Value := .ok (.vbool (b = bs "T"))

/-- The `ValueConverters` table filled by `init()` in `reader.go`. -/
def ValueConverters : DataType → Bytes → Except Err Value
  | .String => ToString
  | .Time => ToFloat64
  | .Addr => ToString
  | .Port => ToUint16
  | .Int => ToInt64
  | .Double => ToFloat64
  | .Count => ToUint64
  | .Interval => ToFloat64
  | .Bool => ToBool
  | .Enum => ToString
  | .Subnet => ToString

/-! ## Eager reader (`src/reader.go`) -/

/-- An eager record.  Go's `map[string]interface{}` is modelled as the
association list of `(field name, value)` pairs written in field order
(field names are unique in well-formed logs); `none` is a Go `nil`
interface value (an absent column). -/
abbrev Record := List (Bytes × Option Value)

/-- `Reader.readValue` (`reader.go`), as a function of the header.  The Go
accesses `r.header.Types[idx]` panic when `idx` is out of range of `Types`;
both arms of the `Empty` branch return `nil, nil` exactly as in the source. -/
def readValue (h : Header) (row : List Bytes) (idx : Nat) : Except Err (Option Value) :=
  if row.length ≤ idx then .error .truncatedLine
  else if row.getD idx [] = h.Unset then .ok none
  else if row.getD idx [] = h.Empty then
    match h.Types.get? idx with
    | none => .error .panic
    | some ft => if ft.IsContainer then .ok none else .ok none
  else
    match h.Types.get? idx with
    | none => .error .panic
    | some ft =>
      if ft.IsContainer then
        ((bsplit (row.getD idx []) h.SetSeparator).mapM (ValueConverters ft.dtype)).map
          (fun vs => some (.vlist vs))
      else (ValueConverters ft.dtype (row.getD idx [])).map some

/-- The record-building loop of `Reader.Read`: convert each declared field
in order, abort on the first error, and skip absent values when `omitEmpty`
is set. -/
def convertLoop (h : Header) (om : Bool) (row : List Bytes) (i : Nat) :
    List Bytes → Except Err Record
  | [] => .ok []
  | f :: fs =>
    match readValue h row i with
    | .error e => .error e
    | .ok v =>
      match convertLoop h om row (i + 1) fs with
      | .error e => .error e
      | .ok rest => .ok (if om && v.isNone then rest else (f, v) :: rest)

/-- `Reader` (`reader.go`). -/
structure Reader where
  parser : Parser
  header : Option Header
  keyTransform : Option (Bytes → Bytes)
  omitEmpty : Bool
  recordOffset : Nat

/-- `NewReader`. -/
def NewReader (data : Bytes) : Reader :=
  { parser := NewParser data, header := none, keyTransform := none
    omitEmpty := false, recordOffset := 0 }

/-- `NewSeekableReader`. -/
def NewSeekableReader (data : Bytes) : Reader :=
  { NewReader data with parser := NewSeekableParser data }

/-- The tail of `Reader.Read` after a row is in hand: the `#close` footer
check and the conversion loop.  (`row[0]` on an empty row would panic.) -/
def readFinish (r : Reader) (h : Header) (row : List Bytes) : Except Err Record × Reader :=
  match row.head? with
  | none => (.error .panic, r)
  | some r0 =>
    if hasPrefix r0 (bs "#close") then (.error .eof, r)
    else
      match convertLoop h r.omitEmpty row 0 h.Fields with
      | .error e => (.error e, r)
      | .ok rec => (.ok rec, r)

/-- `Reader.Read` (`reader.go`).  On the first call the header is parsed and
the already-buffered first data row (`parser.Current`) is converted; later
calls pull a fresh row.  `recordOffset` is captured before the row is read. -/
def Reader.Read (r : Reader) : Except Err Record × Reader :=
  match r.header with
  | none =>
    match readHeader r.parser r.keyTransform with
    | .error e => (.error e, r)
    | .ok (h, p') =>
      let r1 := { r with parser := p', header := some h, recordOffset := h.Length }
      readFinish r1 h p'.Current
  | some h =>
    let r1 := { r with recordOffset := r.parser.offset }
    match r1.parser.Read with
    | (.error e, p') => (.error e, { r1 with parser := p' })
    | (.ok row, p') => readFinish { r1 with parser := p' } h row

/-- `Reader.Offset`. -/
def Reader.Offset (r : Reader) : Nat := r.recordOffset

/-- `Reader.Seek`. -/
def Reader.Seek (r : Reader) (off : Nat) : Except Err Reader :=
  (r.parser.Seek off).map (fun p => { r with parser := p })

/-! ## Lazy reader (`src/unnamed/part_002`) and lazy record
(`src/lazy_record.go`) -/

/-- `LazyReader`.  The `fieldIndex` map is only consulted by the
by-name lookups (`BytesByName`/`ValueByName`), which no claim exercises;
it is omitted from the model. -/
structure LazyReader where
  parser : Parser
  header : Option Header
  recordOffset : Nat

/-- `LazyRecord`: a view of one row plus the owning reader's header
(modelled by embedding the header itself in place of the back-pointer). -/
structure LazyRecord where
  header : Header
  row : List Bytes

/-- `NewLazyReader`. -/
def NewLazyReader (data : Bytes) : LazyReader :=
  { parser := NewParser data, header := none, recordOffset := 0 }

/-- `NewLazySeekableReader`. -/
def NewLazySeekableReader (data : Bytes) : LazyReader :=
  { NewLazyReader data with parser := NewSeekableParser data }

/-- `LazyRecord.BytesByIndex` (`lazy_record.go`): raw sentinel-resolved
bytes; `.ok none` is the Go `nil, nil` return. -/
def LazyRecord.BytesByIndex (r : LazyRecord) (idx : Nat) : Except Err (Option Bytes) :=
  if r.row.length ≤ idx then .error .truncatedLine
  else if r.row.getD idx [] = r.header.Unset then .ok none
  else if r.row.getD idx [] = r.header.Empty then
    match r.header.Types.get? idx with
    | none => .error .panic
    | some ft => if ft.IsContainer then .ok none else .ok none
  else .ok (some (r.row.getD idx []))

/-- `LazyRecord.ValueByIndex` (`lazy_record.go`). -/
def LazyRecord.ValueByIndex (r : LazyRecord) (idx : Nat) : Except Err (Option Value) :=
  match r.BytesByIndex idx with
  | .error e => .error e
  | .ok none => .ok none
  | .ok (some buf) =>
    match r.header.Types.get? idx with
    | none => .error .panic
    | some ft =>
      if ft.IsContainer then
        ((bsplit buf r.header.SetSeparator).mapM (ValueConverters ft.dtype)).map
          (fun vs => some (.vlist vs))
      else (ValueConverters ft.dtype buf).map some

/-- The tail of `LazyReader.Read`: the `#close` footer check and the record
view construction. -/
def lazyFinish (r : LazyReader) (h : Header) (row : List Bytes) :
    Except Err LazyRecord × LazyReader :=
  match row.head? with
  | none => (.error .panic, r)
  | some r0 =>
    if hasPrefix r0 (bs "#close") then (.error .eof, r)
    else (.ok { header := h, row := row }, r)

/-- `LazyReader.Read` (`src/unnamed/part_002`, current snapshot): same
bootstrap, offset and footer semantics as `Reader.Read` but returning a
view. -/
def LazyReader.Read (r : LazyReader) : Except Err LazyRecord × LazyReader :=
  match r.header with
  | none =>
    match readHeader r.parser none with
    | .error e => (.error e, r)
    | .ok (h, p') =>
      let r1 := { r with parser := p', header := some h, recordOffset := h.Length }
      lazyFinish r1 h p'.Current
  | some h =>
    let r1 := { r with recordOffset := r.parser.offset }
    match r1.parser.Read with
    | (.error e, p') => (.error e, { r1 with parser := p' })
    | (.ok row, p') => lazyFinish { r1 with parser := p' } h row

/-- `LazyReader.Offset`. -/
def LazyReader.Offset (r : LazyReader) : Nat := r.recordOffset

/-- `LazyReader.Seek`. -/
def LazyReader.Seek (r : LazyReader) (off : Nat) : Except Err LazyReader :=
  (r.parser.Seek off).map (fun p => { r with parser := p })

/-! ## Claim theorems -/

/-- The normal (non-sentinel) conversion of one column of declared type
`ft`: split on `SetSeparator` and convert each piece for containers,
convert directly for scalars. -/
def normalConvert (h : Header) (ft : FieldType) (col : Bytes) : Except Err (Option Value) :=
  if ft.IsContainer then
    ((bsplit col h.SetSeparator).mapM (ValueConverters ft.dtype)).map
      (fun vs => some (.vlist vs))
  else (ValueConverters ft.dtype col).map some

/-- C3: for every header, row and column index, the lazily converted value
`LazyRecord.ValueByIndex idx` equals the eager `readValue row idx` — same
value, same absence, and the same error on failure. -/
theorem lazy_eager_value_equivalence (h : Header) (row : List Bytes) (idx : Nat) :
    (LazyRecord.mk h row).ValueByIndex idx = readValue h row idx := by
  unfold LazyRecord.ValueByIndex LazyRecord.BytesByIndex readValue
  dsimp only
  split_ifs with h1 h2 h3
  · rfl
  · rfl
  · cases hft : h.Types.get? idx with
    | none => rfl
    | some ft => by_cases hc : ft.IsContainer <;> simp [hc]
  · cases hft : h.Types.get? idx with
    | none => rfl
    | some ft => rfl

/-- C2: sentinel precedence for every column of every row.  (1) A column
equal to `Unset` is absent with no error, regardless of the declared type
(the type table is never consulted); (2) otherwise a column equal to
`Empty` is absent with no error for scalar and container types alike (no
empty sequence is produced); (3) otherwise the column is converted
normally per the declared type.  Identically for the eager `readValue` and
the lazy `BytesByIndex`/`ValueByIndex`. -/
theorem sentinel_precedence (h : Header) (row : List Bytes) (idx : Nat)
    (hidx : idx < row.length) :
    (row.getD idx [] = h.Unset →
      readValue h row idx = .ok none ∧
      (LazyRecord.mk h row).BytesByIndex idx = .ok none ∧
      (LazyRecord.mk h row).ValueByIndex idx = .ok none) ∧
    (row.getD idx [] ≠ h.Unset → row.getD idx [] = h.Empty →
      ∀ ft, h.Types.get? idx = some ft →
        readValue h row idx = .ok none ∧
        (LazyRecord.mk h row).BytesByIndex idx = .ok none ∧
        (LazyRecord.mk h row).ValueByIndex idx = .ok none) ∧
    (row.getD idx [] ≠ h.Unset → row.getD idx [] ≠ h.Empty →
      ∀ ft, h.Types.get? idx = some ft →
        readValue h row idx = normalConvert h ft (row.getD idx []) ∧
        (LazyRecord.mk h row).BytesByIndex idx = .ok (some (row.getD idx [])) ∧
        (LazyRecord.mk h row).ValueByIndex idx = normalConvert h ft (row.getD idx [])) := by
  have hle : ¬ row.length ≤ idx := by omega
  refine ⟨?_, ?_, ?_⟩
  · intro h2
    unfold readValue LazyRecord.BytesByIndex LazyRecord.ValueByIndex LazyRecord.BytesByIndex
    dsimp only
    split_ifs <;> first | (refine ⟨rfl, rfl, rfl⟩) | exact absurd h2 (by assumption) |
      exact absurd (by assumption) hle
  · intro h2 h3 ft hft
    unfold readValue LazyRecord.BytesByIndex LazyRecord.ValueByIndex LazyRecord.BytesByIndex
    dsimp only
    split_ifs <;>
      first
        | exact absurd (by assumption) hle
        | exact absurd (by assumption) h2
        | exact absurd h3 (by assumption)
        | (rw [hft]; by_cases hc : ft.IsContainer <;> simp [hc])
  · intro h2 h3 ft hft
    unfold readValue LazyRecord.BytesByIndex LazyRecord.ValueByIndex LazyRecord.BytesByIndex
    dsimp only
    split_ifs <;>
      first
        | exact absurd (by assumption) hle
        | exact absurd (by assumption) h2
        | exact absurd (by assumption) h3
        | (rw [hft]; exact ⟨rfl, rfl, rfl⟩)

/-- A small concrete header for witnesses: `Unset = "-"`,
`Empty = "(empty)"`, a single scalar `count` column. -/
def witHeader : Header :=
  { Unset := bs "-", Empty := bs "(empty)", Types := [⟨.Count, false⟩] }

/-- Witness for C2: the three sentinel branches exercised on the concrete
rows `["-"]`, `["(empty)"]` and `["7"]` under `witHeader`. -/
theorem sentinel_precedence_witness :
    (0 : Nat) < 1 ∧
      readValue witHeader [bs "-"] 0 = .ok none ∧
      readValue witHeader [bs "(empty)"] 0 = .ok none ∧
      readValue witHeader [bs "7"] 0 = .ok (some (.vu64 7)) := by
  refine ⟨Nat.zero_lt_one, ?_, ?_, ?_⟩
  · exact ((sentinel_precedence witHeader [bs "-"] 0 Nat.zero_lt_one).1 (by decide)).1
  · exact (((sentinel_precedence witHeader [bs "(empty)"] 0 Nat.zero_lt_one).2.1
      (by decide) (by decide)) ⟨.Count, false⟩ (by decide)).1
  · have := (((sentinel_precedence witHeader [bs "7"] 0 Nat.zero_lt_one).2.2
      (by decide) (by decide)) ⟨.Count, false⟩ (by decide)).1
    rw [this]
    rfl

/-- C7: on the stream with header directives `#fields ts uid port` and
`#types time string port` followed by the data row `1.5<TAB>abc<TAB>80`,
the eager reader's first `Read` returns, with no error, the record mapping
`ts` to the parsed float `1.5` (represented exactly as `15 * 10^-1`, whose
denotation is the rational `1.5`), `uid` to the string `"abc"` and `port`
to the 16-bit unsigned integer `80`. -/
theorem eager_read_scenario :
    ((NewReader (bs "#fields\tts\tuid\tport\n#types\ttime\tstring\tport\n1.5\tabc\t80\n")).Read).1
      = .ok [(bs "ts", some (.vf64 15 (-1))),
             (bs "uid", some (.vstr (bs "abc"))),
             (bs "port", some (.vu16 80))] ∧
    f64Denotes 15 (-1) = (1.5 : ℚ) := by
  constructor
  · rfl
  · norm_num [f64Denotes]

/-- C8: out-of-range column access on a short row.  (1) `readValue` yields
the truncated-line error for every index at or beyond the row's length,
and so do the lazy `BytesByIndex` and `ValueByIndex`; (2) the record
conversion loop of `Reader.Read` returns `ErrTruncatedLine` when it reaches
a declared field whose index is beyond the row's length (every in-range
field converting cleanly); (3) hence `Reader.Read`'s per-row tail fails
with `ErrTruncatedLine` on a non-footer row shorter than the declared
field count. -/
theorem short_row_truncated_line (h : Header) (row : List Bytes) (idx : Nat)
    (hidx : row.length ≤ idx) :
    (readValue h row idx = .error .truncatedLine ∧
     (LazyRecord.mk h row).BytesByIndex idx = .error .truncatedLine ∧
     (LazyRecord.mk h row).ValueByIndex idx = .error .truncatedLine) ∧
    (∀ (om : Bool) (fs : List Bytes) (i : Nat), i ≤ row.length →
      row.length < i + fs.length →
      (∀ j, j < row.length → ∃ v, readValue h row j = .ok v) →
      convertLoop h om row i fs = .error .truncatedLine) ∧
    (∀ (r : Reader) (r0 : Bytes), row.head? = some r0 →
      ¬ hasPrefix r0 (bs "#close") →
      row.length < h.Fields.length →
      (∀ j, j < row.length → ∃ v, readValue h row j = .ok v) →
      (readFinish r h row).1 = .error .truncatedLine) := by
  have base : ∀ (h' : Header) (row' : List Bytes) (k : Nat), row'.length ≤ k →
      readValue h' row' k = .error .truncatedLine := by
    intro h' row' k hk
    unfold readValue
    rw [if_pos hk]
  have loop : ∀ (om : Bool) (fs : List Bytes) (i : Nat), i ≤ row.length →
      row.length < i + fs.length →
      (∀ j, j < row.length → ∃ v, readValue h row j = .ok v) →
      convertLoop h om row i fs = .error .truncatedLine := by
    intro om fs
    induction fs with
    | nil => intro i h1 h2 _; simp at h2; omega
    | cons f fs ih =>
      intro i h1 h2 hok
      unfold convertLoop
      by_cases hi : i < row.length
      · obtain ⟨v, hv⟩ := hok i hi
        rw [hv, ih (i + 1) (by omega) (by simp at h2 ⊢; omega) hok]
      · rw [base h row i (by omega)]
  refine ⟨⟨base h row idx hidx, ?_, ?_⟩, loop, ?_⟩
  · unfold LazyRecord.BytesByIndex
    dsimp only
    rw [if_pos hidx]
  · unfold LazyRecord.ValueByIndex LazyRecord.BytesByIndex
    dsimp only
    rw [if_pos hidx]
  · intro r r0 hr0 hclose hshort hok
    unfold readFinish
    rw [hr0]
    dsimp only
    rw [if_neg hclose, loop r.omitEmpty h.Fields 0 (by omega) (by omega) hok]

/-- A concrete header for the C8 witness: two declared `string` fields. -/
def witHeader2 : Header :=
  { Fields := [bs "a", bs "b"], Types := [⟨.String, false⟩, ⟨.String, false⟩],
    Unset := bs "-", Empty := bs "(empty)" }

/-- Witness for C8: under `witHeader2` (two declared fields) the one-column
row `["x"]` gives the truncated-line error at index 1 and in the conversion
loop. -/
theorem short_row_truncated_line_witness :
    ([bs "x"] : List Bytes).length ≤ 1 ∧
      readValue witHeader2 [bs "x"] 1 = .error .truncatedLine ∧
      convertLoop witHeader2 false [bs "x"] 0 [bs "a", bs "b"]
        = .error .truncatedLine := by
  refine ⟨by decide, ?_, ?_⟩
  · exact (short_row_truncated_line witHeader2 [bs "x"] 1 (by decide)).1.1
  · exact (short_row_truncated_line witHeader2 [bs "x"] 1 (by decide)).2.1 false
      [bs "a", bs "b"] 0 (by decide) (by decide)
      (by intro j hj
          simp at hj
          subst hj
          exact ⟨some (.vstr (bs "x")), by rfl⟩)

/-- C6 counterexample: on the stream `"a\tb\nc\n"`, after reading the
two-column row `["a","b"]` (latching the column count 2) and seeking to
offset 4 (the start of the line `"c\n"`), the next `Read` does **not**
re-derive the column count from the one-column line it reads: the latch is
still 2 and the returned row is the two-column `["c","b"]` (with a stale
second column), not `["c"]`. -/
theorem seek_latch_counterexample :
    ((NewSeekableParser (bs "a\tb\nc\n")).Read.2.Seek 4).map
        (fun p => (p.n, (p.Read).1)) =
      .ok (2, .ok [bs "c", bs "b"]) ∧
    (2 : Nat) ≠ 0 ∧ ([bs "c", bs "b"] : List Bytes) ≠ [bs "c"] := by
  refine ⟨by rfl, by decide, by decide⟩

/-- C6 amended: a successful `Seek(off)` repositions the stream (and
discards buffered look-ahead) but changes nothing else — in particular the
column-count latch `n` and the row buffer survive, so the next `Read` with
a nonzero latch reuses the previously latched count instead of re-deriving
it; `ResetRow` is the operation that forces a fresh latch. -/
theorem seek_keeps_latch (p : Parser) (off : Nat) :
    (∀ p', p.Seek off = .ok p' → p' = { p with pos := off }) ∧
    (p.n ≠ 0 → ((p.Read).2).n = p.n) ∧
    (p.ResetRow).n = 0 := by
  refine ⟨?_, ?_, rfl⟩
  · intro p' hs
    unfold Parser.Seek at hs
    split at hs
    · exact (Except.ok.inj hs).symm
    · exact absurd hs (by simp)
  · intro hn
    unfold Parser.Read
    dsimp only
    split
    · split <;> rfl
    · split <;> rfl

/-- Witness for C6 amended: the parser latched at 2 on `"a\tb\nc\n"` keeps
`n = 2` across `Seek 4` and the following `Read`, while `ResetRow` clears
it. -/
theorem seek_keeps_latch_witness :
    (NewSeekableParser (bs "a\tb\nc\n")).Read.2.Seek 4 =
      .ok { (NewSeekableParser (bs "a\tb\nc\n")).Read.2 with pos := 4 } ∧
    (((NewSeekableParser (bs "a\tb\nc\n")).Read.2.Read).2).n = 2 ∧
    ((NewSeekableParser (bs "a\tb\nc\n")).Read.2.ResetRow).n = 0 := by
  have h := seek_keeps_latch ((NewSeekableParser (bs "a\tb\nc\n")).Read.2) 4
  refine ⟨?_, (h.2.1 (by decide)).trans (by decide), h.2.2⟩
  have hs : (NewSeekableParser (bs "a\tb\nc\n")).Read.2.Seek 4 =
      .ok ({ (NewSeekableParser (bs "a\tb\nc\n")).Read.2 with pos := 4 }) := by rfl
  exact hs

theorem takeLine_of_no_nl {l : Bytes} (h : ∀ c ∈ l, c ≠ NL) : takeLine l = l := by
  induction l with
  | nil => rfl
  | cons c cs ih =>
    rw [takeLine, if_neg (h c (by simp)), ih (fun x hx => h x (by simp [hx]))]

theorem takeLine_append_nl {l : Bytes} (h : ∀ c ∈ l, c ≠ NL) :
    takeLine (l ++ [NL]) = l ++ [NL] := by
  induction l with
  | nil => rfl
  | cons c cs ih =>
    rw [List.cons_append, takeLine, if_neg (h c (by simp)),
      ih (fun x hx => h x (by simp [hx]))]

theorem splitSegs_of_no_delim {d : Byte} {l : Bytes} (h : ∀ c ∈ l, c ≠ d) :
    splitSegs d l = ([], l) := by
  induction l with
  | nil => rfl
  | cons c cs ih =>
    simp only [splitSegs, ih (fun x hx => h x (by simp [hx])), if_neg (h c (by simp))]

theorem countByte_of_no_delim {d : Byte} {l : Bytes} (h : ∀ c ∈ l, c ≠ d) :
    countByte l d = 0 := by
  simp only [countByte, List.length_eq_zero]
  rw [List.filter_eq_nil]
  intro a ha
  simpa using h a ha

theorem lineGet_nonneg (l : Bytes) (i : Int) (hi : 0 ≤ i) :
    lineGet l i = l.get? i.toNat := by
  unfold lineGet
  by_cases hlt : i.toNat < l.length
  · rw [dif_pos ⟨hi, hlt⟩, List.get?_eq_get hlt]
  · rw [dif_neg (by tauto), List.get?_eq_none.mpr (by omega)]

theorem lineGet_neg (l : Bytes) (i : Int) (hi : i < 0) : lineGet l i = none := by
  unfold lineGet
  rw [dif_neg (by omega)]

/-- C9 amended: the `bufio.Reader`-based `Parser.Read` imposes no maximum
line length — for every `m ≥ 1`, a parser whose stream is a single
newline-terminated line of `m` bytes `'a'` reads it successfully (and there
is no "line too long" error in the package's error set at all). -/
theorem parser_reads_any_length (m : Nat) (hm : 1 ≤ m) :
    ((NewParser (List.replicate m 97 ++ [NL])).Read).1 = .ok [List.replicate m 97] := by
  have hmem : ∀ c ∈ List.replicate m 97, c = 97 := fun c hc => List.eq_of_mem_replicate hc
  have hnodelim : ∀ d : Byte, d ≠ 97 → d ≠ NL → ∀ c ∈ List.replicate m 97 ++ [NL], c ≠ d := by
    intro d h97 hnl c hc hcd
    rcases List.mem_append.mp hc with h1 | h1
    · exact h97 (hcd ▸ hmem c h1)
    · simp only [List.mem_singleton] at h1
      exact hnl (hcd ▸ h1)
  have htl : takeLine (List.replicate m 97 ++ [NL]) = List.replicate m 97 ++ [NL] :=
    takeLine_append_nl (fun c hc => by rw [hmem c hc]; decide)
  have hlen : (List.replicate m 97 ++ [NL]).length = m + 1 := by simp
  have h0 : lineGet (List.replicate m 97 ++ [NL]) (((m + 1 : Nat) : Int) - 1) = some NL := by
    rw [lineGet_nonneg (List.replicate m 97 ++ [NL]) (((m + 1 : Nat) : Int) - 1) (by omega)]
    have ht : (((m + 1 : Nat) : Int) - 1).toNat = m := by omega
    rw [ht, List.get?_append_right (by simp)]
    simp
  have h1 : lineGet (List.replicate m 97 ++ [NL]) (((m + 1 : Nat) : Int) - 1 - 1)
      = some 97 := by
    rw [lineGet_nonneg (List.replicate m 97 ++ [NL]) (((m + 1 : Nat) : Int) - 1 - 1)
      (by omega)]
    have ht : (((m + 1 : Nat) : Int) - 1 - 1).toNat = m - 1 := by omega
    rw [ht, List.get?_append (by simp; omega)]
    simp [List.getElem?_replicate]
    omega
  have hfc : finalCol (List.replicate m 97 ++ [NL]) 0 = some (List.replicate m 97) := by
    simp only [finalCol, hlen]
    rw [h0]
    dsimp only
    rw [if_pos (rfl : NL = NL), h1]
    dsimp only
    rw [if_neg (show ¬ (97 = CR) by decide)]
    rw [if_pos (show ((0 : Nat) : Int) ≤ ((m + 1 : Nat) : Int) - 1 - 1 + 1 by omega)]
    congr 1
    rw [List.drop_zero]
    have ht2 : ((((m + 1 : Nat) : Int) - 1 - 1 + 1 - ((0 : Nat) : Int)).toNat) = m := by
      omega
    rw [ht2]
    have := List.take_left (List.replicate m 97) ([NL] : List Nat)
    rwa [List.length_replicate] at this
  rw [Parser.Read]
  dsimp only [NewParser]
  rw [List.drop_zero, htl, if_pos (List.getLast?_concat _)]
  rw [if_pos rfl, if_pos rfl]
  unfold splitInto
  rw [splitSegs_of_no_delim (hnodelim TAB (by decide) (by decide))]
  dsimp only
  rw [Nat.sub_self, hfc]
  rw [countByte_of_no_delim (hnodelim TAB (by decide) (by decide))]
  simp

/-- C9 counterexample: there is **no** maximum line length for
`Parser.Read` — for every candidate bound, a longer newline-terminated
line is read without any error, so no "line too long" failure exists. -/
theorem no_max_line_length_counterexample :
    ¬ ∃ maxLen : Nat, ∀ m : Nat, maxLen < m →
        ∃ e, ((NewParser (List.replicate m 97 ++ [NL])).Read).1 = .error e := by
  rintro ⟨L, hL⟩
  obtain ⟨e, he⟩ := hL (L + 1) (Nat.lt_succ_self L)
  rw [parser_reads_any_length (L + 1) (by omega)] at he
  exact absurd he (by simp)

/-- Witness for C9 amended: the theorem applied at the concrete length 5. -/
theorem parser_reads_any_length_witness :
    1 ≤ 5 ∧ ((NewParser (List.replicate 5 97 ++ [NL])).Read).1 = .ok [List.replicate 5 97] :=
  ⟨by decide, parser_reads_any_length 5 (by decide)⟩

theorem countByte_cons (c : Nat) (cs : Bytes) (d : Nat) :
    countByte (c :: cs) d = (if c = d then 1 else 0) + countByte cs d := by
  simp only [countByte, List.filter_cons]
  by_cases hc : c = d
  · simp only [hc, decide_True, if_true, List.length_cons]
    omega
  · simp [hc]

theorem splitSegs_fst_length (d : Nat) (l : Bytes) :
    (splitSegs d l).1.length = countByte l d := by
  induction l with
  | nil => rfl
  | cons c cs ih =>
    simp only [splitSegs]
    rw [countByte_cons]
    by_cases hc : c = d
    · rw [if_pos hc, if_pos hc]
      simp only [List.length_cons]
      omega
    · rw [if_neg hc, if_neg hc]
      cases hr : (splitSegs d cs).1 with
      | nil =>
        rw [hr] at ih
        simp only [List.length_nil] at ih ⊢
        omega
      | cons s ss =>
        rw [hr] at ih
        simp only [List.length_cons] at ih ⊢
        omega

theorem countByte_eq_zero {d : Nat} {l : Bytes} (h : countByte l d = 0) :
    ∀ c ∈ l, c ≠ d := by
  intro c hc hcd
  subst hcd
  simp only [countByte, List.length_eq_zero] at h
  rw [List.filter_eq_nil] at h
  exact absurd (by simp) (h c hc)

/-- Characterization of the trailing segment of `splitSegs`: it is a suffix
of the line containing no delimiter, and (unless it is the whole line) the
byte just before it is a delimiter occurrence. -/
theorem splitSegs_snd_spec (d : Nat) (l : Bytes) :
    (splitSegs d l).2.length ≤ l.length ∧
    (splitSegs d l).2 = l.drop (l.length - (splitSegs d l).2.length) ∧
    (∀ c ∈ (splitSegs d l).2, c ≠ d) ∧
    ((splitSegs d l).2.length = l.length ∨
      l.getD (l.length - (splitSegs d l).2.length - 1) 0 = d) := by
  induction l with
  | nil => exact ⟨le_refl _, rfl, by simp [splitSegs], .inl rfl⟩
  | cons c cs ih =>
    obtain ⟨ih1, ih2, ih3, ih4⟩ := ih
    simp only [splitSegs]
    by_cases hc : c = d
    · rw [if_pos hc]
      dsimp only
      have hA : (c :: cs).length - (splitSegs d cs).2.length
          = (cs.length - (splitSegs d cs).2.length) + 1 := by
        simp only [List.length_cons]; omega
      refine ⟨by simpa using Nat.le_succ_of_le ih1, ?_, ih3, .inr ?_⟩
      · rw [hA, List.drop_succ_cons]
        exact ih2
      · rw [hA, Nat.add_sub_cancel]
        rcases Nat.eq_zero_or_pos (cs.length - (splitSegs d cs).2.length) with hk | hk
        · rw [hk]
          simpa using hc
        · have hk1 : cs.length - (splitSegs d cs).2.length
              = (cs.length - (splitSegs d cs).2.length - 1) + 1 := by omega
          rw [hk1, List.getD_cons_succ]
          rcases ih4 with h4 | h4
          · exact absurd h4 (by omega)
          · exact h4
    · rw [if_neg hc]
      cases hr : (splitSegs d cs).1 with
      | nil =>
        have hz : countByte cs d = 0 := by
          rw [← splitSegs_fst_length, hr]
          rfl
        have hcs : splitSegs d cs = ([], cs) :=
          splitSegs_of_no_delim (countByte_eq_zero hz)
        rw [hcs]
        dsimp only
        refine ⟨le_refl _, by simp, ?_, .inl rfl⟩
        intro x hx
        rcases List.mem_cons.mp hx with h1 | h1
        · rw [h1]; exact hc
        · exact countByte_eq_zero hz x h1
      | cons s ss =>
        dsimp only
        have hlt : (splitSegs d cs).2.length < cs.length := by
          rcases Nat.lt_or_ge (splitSegs d cs).2.length cs.length with h | h
          · exact h
          · exfalso
            have he : (splitSegs d cs).2.length = cs.length := le_antisymm ih1 h
            have ht : (splitSegs d cs).2 = cs := by
              rw [ih2, he, Nat.sub_self, List.drop_zero]
            have hpos : countByte cs d ≠ 0 := by
              rw [← splitSegs_fst_length, hr]
              simp
            have hfil : cs.filter (fun x => x = d) ≠ [] := by
              intro h0
              exact hpos (by simp [countByte, h0])
            obtain ⟨x, hx⟩ := List.exists_mem_of_ne_nil _ hfil
            have hxcs : x ∈ cs := (List.mem_filter.mp hx).1
            have hxd : x = d := by simpa using (List.mem_filter.mp hx).2
            exact ih3 x (by rw [ht]; exact hxcs) hxd
        refine ⟨by simpa using Nat.le_succ_of_le ih1, ?_, ih3, .inr ?_⟩
        · have hd1 : (c :: cs).length - (splitSegs d cs).2.length
              = (cs.length - (splitSegs d cs).2.length) + 1 := by
            simp only [List.length_cons]; omega
          rw [hd1, List.drop_succ_cons]
          exact ih2
        · have hb : (c :: cs).length - (splitSegs d cs).2.length - 1
              = (cs.length - (splitSegs d cs).2.length - 1) + 1 := by
            simp only [List.length_cons]; omega
          rw [hb, List.getD_cons_succ]
          rcases ih4 with h4 | h4
          · exact absurd h4 (by omega)
          · exact h4

theorem getLast?_getD {l : Bytes} {a : Nat} (h : l.getLast? = some a) :
    l.getD (l.length - 1) 0 = a := by
  rw [List.getLast?_eq_getElem?] at h
  simp [List.getD, h]

theorem lineGet_getD (l : Bytes) (k : Nat) (hk : k < l.length) :
    lineGet l (k : Int) = some (l.getD k 0) := by
  rw [lineGet_nonneg l (k : Int) (by omega)]
  have ht : ((k : Int)).toNat = k := by omega
  rw [ht]
  simp [List.getD, List.getElem?_eq_getElem hk]

/-- Totality of the column-splitting phase for a tab-delimited,
newline-terminated line that is not the bare `"\n"`, into a buffer at least
as wide as the line's column count: no runtime panic, and the written row
has exactly the buffer's length. -/
theorem splitInto_some (line : Bytes) (buf : List Bytes)
    (hNLlast : line.getLast? = some NL) (hne : line ≠ [NL])
    (hfit : countByte line TAB + 1 ≤ buf.length) :
    ∃ w, splitInto line TAB buf = some w ∧ w.length = buf.length := by
  obtain ⟨hs1, hs2, hs3, hs4⟩ := splitSegs_snd_spec TAB line
  have hnn : line ≠ [] := by
    intro h0
    rw [h0] at hNLlast
    simp at hNLlast
  have hlen1 : 1 ≤ line.length := List.length_pos.mpr hnn
  have hlen2 : 2 ≤ line.length := by
    rcases Nat.lt_or_ge line.length 2 with h | h
    · exfalso
      have h1 : line.length = 1 := by omega
      obtain ⟨x, hx⟩ := List.length_eq_one.mp h1
      rw [hx] at hNLlast
      simp at hNLlast
      exact hne (by rw [hx, hNLlast])
    · exact h
  have hlast : line.getD (line.length - 1) 0 = NL := getLast?_getD hNLlast
  have hApos : 1 ≤ (splitSegs TAB line).2.length := by
    rcases Nat.eq_zero_or_pos (splitSegs TAB line).2.length with h0 | h0
    · exfalso
      rcases hs4 with h4 | h4
      · omega
      · rw [h0, Nat.sub_zero] at h4
        rw [h4] at hlast
        exact absurd hlast (by decide)
    · exact h0
  -- the final-column computation cannot panic
  have hfc : ∃ fin, finalCol line (line.length - (splitSegs TAB line).2.length)
      = some fin := by
    simp only [finalCol]
    have he0 : ((line.length : Nat) : Int) - 1 = ((line.length - 1 : Nat) : Int) := by
      omega
    rw [he0, lineGet_getD line (line.length - 1) (by omega), hlast]
    dsimp only
    rw [if_pos rfl]
    have he1 : ((line.length - 1 : Nat) : Int) - 1 = ((line.length - 2 : Nat) : Int) := by
      omega
    rw [he1, lineGet_getD line (line.length - 2) (by omega)]
    dsimp only
    by_cases hcr : line.getD (line.length - 2) 0 = CR
    · rw [if_pos hcr]
      -- e2 + 1 = len - 2; the start is at most len - 2 because the trailing
      -- segment contains the final "\r\n"
      have hA2 : 2 ≤ (splitSegs TAB line).2.length := by
        rcases Nat.lt_or_ge (splitSegs TAB line).2.length 2 with h | h
        · exfalso
          have hA1 : (splitSegs TAB line).2.length = 1 := by omega
          rcases hs4 with h4 | h4
          · omega
          · rw [hA1] at h4
            have hix : line.length - 1 - 1 = line.length - 2 := by omega
            rw [hix] at h4
            rw [h4] at hcr
            exact absurd hcr (by decide)
        · exact h
      rw [if_pos (show ((line.length - (splitSegs TAB line).2.length : Nat) : Int)
            ≤ ((line.length - 2 : Nat) : Int) - 1 + 1 by omega)]
      exact ⟨_, rfl⟩
    · rw [if_neg hcr]
      have hstart : line.length - (splitSegs TAB line).2.length ≤ line.length - 1 := by
        omega
      rcases Nat.lt_or_ge (line.length - (splitSegs TAB line).2.length)
          (line.length - 1) with h | h
      · rw [if_pos (show ((line.length - (splitSegs TAB line).2.length : Nat) : Int)
              ≤ ((line.length - 2 : Nat) : Int) + 1 by omega)]
        exact ⟨_, rfl⟩
      · -- start = len - 1, so A = 1 and the byte before the trailing
        -- segment is a delimiter at index len - 2 — but then that byte is
        -- TAB, contradicting `hcr`-free CR check only; here it is fine:
        -- e2 + 1 = len - 1 ≥ start
        rw [if_pos (show ((line.length - (splitSegs TAB line).2.length : Nat) : Int)
              ≤ ((line.length - 2 : Nat) : Int) + 1 by omega)]
        exact ⟨_, rfl⟩
  obtain ⟨fin, hfin⟩ := hfc
  refine ⟨(splitSegs TAB line).1 ++ fin :: buf.drop ((splitSegs TAB line).1.length + 1),
    ?_, ?_⟩
  · simp only [splitInto]
    rw [hfin]
    dsimp only
    rw [if_pos (by rw [splitSegs_fst_length]; omega)]
  · have hm : (splitSegs TAB line).1.length + 1 ≤ buf.length := by
      rw [splitSegs_fst_length]; omega
    simp only [List.length_append, List.length_cons, List.length_drop]
    omega

/-- C10 amended: `Parser.Read` performs no out-of-range access provided
(i) the row buffer matches the latch (`n = 0` or `row.length = n`, which
holds in every reachable state), (ii) the next line is not the bare
newline `"\n"` (at least one byte precedes the terminator), and (iii) once
the column count is latched, the next line has no more columns than the
latch.  Both side conditions on the line are necessary (see the
counterexample); the resulting state satisfies the buffer invariant
again. -/
theorem read_no_out_of_range (p : Parser) (hd : p.delimiter = TAB)
    (hInv : p.n = 0 ∨ p.row.length = p.n)
    (hne : takeLine (p.data.drop p.pos) ≠ [NL])
    (hfit : p.n ≠ 0 → countByte (takeLine (p.data.drop p.pos)) TAB + 1 ≤ p.n) :
    (p.Read).1 ≠ .error .panic ∧
      ((p.Read).2.n = 0 ∨ (p.Read).2.row.length = (p.Read).2.n) := by
  by_cases hNL : (takeLine (p.data.drop p.pos)).getLast? = some NL
  · have hbuf : countByte (takeLine (p.data.drop p.pos)) TAB + 1 ≤
        (if p.n = 0 then
            List.replicate (countByte (takeLine (p.data.drop p.pos)) TAB + 1) ([] : Bytes)
          else p.row).length := by
      by_cases hn : p.n = 0
      · rw [if_pos hn]; simp
      · rw [if_neg hn]
        rcases hInv with h | h
        · exact absurd h hn
        · rw [h]; exact hfit hn
    obtain ⟨w, hw, hwlen⟩ :=
      splitInto_some (takeLine (p.data.drop p.pos)) _ hNL hne hbuf
    unfold Parser.Read
    rw [if_pos hNL]
    dsimp only
    rw [hd, hw]
    refine ⟨by simp, .inr ?_⟩
    dsimp only
    rw [hwlen]
    by_cases hn : p.n = 0
    · rw [if_pos hn, if_pos hn]
      simp
    · rw [if_neg hn, if_neg hn]
      rcases hInv with h | h
      · exact absurd h hn
      · exact h
  · unfold Parser.Read
    rw [if_neg hNL]
    split <;> exact ⟨by simp, hInv⟩

/-- C10 counterexample: the claim's precondition ("each newline-terminated
line contains at least one byte before its terminator") is **not**
sufficient.  On `"a\nb\tc\n"`, both lines satisfy it, yet the second
`Read` still indexes out of range (writing column 2 into the row buffer of
length 1 latched by the first line) — the code panics.  The necessity half
of the claim is real: on the bare `"\n"` line the final-column stripping
indexes position `-1`. -/
theorem short_line_panic_counterexample :
    takeLine (bs "a\nb\tc\n") ≠ [NL] ∧
    takeLine ((bs "a\nb\tc\n").drop 2) ≠ [NL] ∧
    (NewParser (bs "a\nb\tc\n")).Read.2.pos = 2 ∧
    ((NewParser (bs "a\nb\tc\n")).Read.2.Read).1 = .error .panic ∧
    ((NewParser (bs "\n")).Read).1 = .error .panic := by
  refine ⟨by decide, by decide, by decide, by rfl, by rfl⟩

/-- Witness for C10 amended: a fresh parser (latch 0) on the two-column
line `"x\ty\n"` reads without a panic. -/
theorem read_no_out_of_range_witness :
    (NewParser (bs "x\ty\n")).delimiter = TAB ∧
    takeLine ((NewParser (bs "x\ty\n")).data.drop (NewParser (bs "x\ty\n")).pos) ≠ [NL] ∧
    ((NewParser (bs "x\ty\n")).Read).1 ≠ .error .panic :=
  ⟨rfl, by decide,
    (read_no_out_of_range (NewParser (bs "x\ty\n")) rfl (.inl rfl) (by decide)
      (fun hh => absurd rfl hh)).1⟩

/-- A parser whose whole remaining stream is exactly `"#close\n"` reads a
row whose first column is `"#close"`. -/
theorem read_close_line (p : Parser) (hd : p.delimiter = TAB)
    (hInv : p.n = 0 ∨ p.row.length = p.n)
    (hrest : p.data.drop p.pos = bs "#close\n") :
    ∃ t p', p.Read = (.ok (bs "#close" :: t), p') := by
  unfold Parser.Read
  rw [hrest]
  rw [show takeLine (bs "#close\n") = bs "#close\n" from by decide]
  rw [if_pos (show (bs "#close\n").getLast? = some NL from by decide)]
  dsimp only
  rw [hd]
  by_cases hn : p.n = 0
  · rw [if_pos hn, if_pos hn]
    rw [show splitInto (bs "#close\n") TAB
        (List.replicate (countByte (bs "#close\n") TAB + 1) []) = some [bs "#close"]
      from by decide]
    exact ⟨[], _, rfl⟩
  · rw [if_neg hn, if_neg hn]
    have hrow : 1 ≤ p.row.length := by
      rcases hInv with h | h
      · exact absurd h hn
      · rw [h]; omega
    have hsp : splitInto (bs "#close\n") TAB p.row
        = some (bs "#close" :: p.row.drop 1) := by
      simp only [splitInto]
      rw [show splitSegs TAB (bs "#close\n") = ([], bs "#close\n") from by decide]
      dsimp only
      rw [Nat.sub_self]
      rw [show finalCol (bs "#close\n") 0 = some (bs "#close") from by decide]
      dsimp only
      rw [if_pos (by simpa using hrow)]
      rfl
    rw [hsp]
    exact ⟨p.row.drop 1, _, rfl⟩

/-- A parser whose whole remaining stream is exactly `"#close"` (truncated
footer, no trailing newline) reads a clean end-of-stream. -/
theorem read_close_truncated (p : Parser)
    (hrest : p.data.drop p.pos = bs "#close") :
    (p.Read).1 = .error .eof := by
  unfold Parser.Read
  rw [hrest]
  rw [show takeLine (bs "#close") = bs "#close" from by decide]
  rw [if_neg (show ¬ ((bs "#close").getLast? = some NL) from by decide)]
  rw [if_neg (show ¬ ((bs "#close") ≠ [] ∧ ¬ hasPrefix (bs "#close") (bs "#"))
    from by decide)]

/-- C1: end-of-stream handling of `Parser.Read` and its consequence for the
reader.  (1) When the stream ends with a non-empty remainder not terminated
by a newline, `Read` returns the truncated-line error — unless that partial
remainder begins with `'#'`, in which case it returns the clean
end-of-stream signal; an empty remainder is also a clean end-of-stream.
(2) Consequently an eager reader past its header bootstrap terminates
cleanly (end-of-stream, no error) both on a stream ending exactly at
`"#close\n"` and on one ending at `"#close"` with no trailing newline. -/
theorem eof_footer_tolerance :
    (∀ p : Parser, (∀ c ∈ p.data.drop p.pos, c ≠ NL) →
      (p.data.drop p.pos ≠ [] → ¬ hasPrefix (p.data.drop p.pos) (bs "#") →
        (p.Read).1 = .error .truncatedLine) ∧
      (p.data.drop p.pos = [] ∨ hasPrefix (p.data.drop p.pos) (bs "#") →
        (p.Read).1 = .error .eof)) ∧
    (∀ (r : Reader) (h : Header), r.header = some h → r.parser.delimiter = TAB →
      (r.parser.n = 0 ∨ r.parser.row.length = r.parser.n) →
      (r.parser.data.drop r.parser.pos = bs "#close\n" → (r.Read).1 = .error .eof) ∧
      (r.parser.data.drop r.parser.pos = bs "#close" → (r.Read).1 = .error .eof)) := by
  constructor
  · intro p hnonl
    have ht : takeLine (p.data.drop p.pos) = p.data.drop p.pos := takeLine_of_no_nl hnonl
    have hlast : ¬ ((p.data.drop p.pos).getLast? = some NL) := by
      intro hc
      exact hnonl NL (List.mem_of_mem_getLast? hc) rfl
    constructor
    · intro h1 h2
      unfold Parser.Read
      rw [ht, if_neg hlast, if_pos ⟨h1, h2⟩]
    · intro h1
      unfold Parser.Read
      rw [ht, if_neg hlast, if_neg ?_]
      rcases h1 with h1 | h1
      · exact fun hc => hc.1 h1
      · exact fun hc => hc.2 h1
  · intro r h hh hd hInv
    constructor
    · intro hrest
      obtain ⟨t, p', hread⟩ := read_close_line r.parser hd hInv hrest
      unfold Reader.Read
      rw [hh]
      dsimp only
      rw [hread]
      dsimp only
      unfold readFinish
      simp only [List.head?_cons]
      rw [if_pos (show hasPrefix (bs "#close") (bs "#close") from by decide)]
    · intro hrest
      have hread := read_close_truncated r.parser hrest
      unfold Reader.Read
      rw [hh]
      dsimp only
      rcases hp : r.parser.Read with ⟨res, p'⟩
      rw [hp] at hread
      dsimp only at hread
      rw [hread]

/-- Witness for C1 at concrete states: a truncated data line, a truncated
footer, an empty stream tail, and the two `#close` stream endings on a
reader whose header is established. -/
theorem eof_footer_tolerance_witness :
    ((NewParser (bs "abc")).Read).1 = .error .truncatedLine ∧
    ((NewParser (bs "#close")).Read).1 = .error .eof ∧
    ((NewParser ([] : Bytes)).Read).1 = .error .eof ∧
    ((Reader.mk (NewParser (bs "#close\n")) (some witHeader2) none false 0).Read).1
      = .error .eof ∧
    ((Reader.mk (NewParser (bs "#close")) (some witHeader2) none false 0).Read).1
      = .error .eof := by
  refine ⟨?_, ?_, ?_, ?_, ?_⟩
  · exact ((eof_footer_tolerance.1 (NewParser (bs "abc")) (by decide)).1
      (by decide) (by decide))
  · exact ((eof_footer_tolerance.1 (NewParser (bs "#close")) (by decide)).2
      (.inr (by decide)))
  · exact ((eof_footer_tolerance.1 (NewParser ([] : Bytes)) (by decide)).2
      (.inl (by decide)))
  · exact ((eof_footer_tolerance.2
      (Reader.mk (NewParser (bs "#close\n")) (some witHeader2) none false 0)
      witHeader2 rfl rfl (.inl rfl)).1 (by decide))
  · exact ((eof_footer_tolerance.2
      (Reader.mk (NewParser (bs "#close")) (some witHeader2) none false 0)
      witHeader2 rfl rfl (.inl rfl)).2 (by decide))

/-- Re-splitting a line into the row it just produced reproduces that row:
the delimiter loop writes the same segments to the same positions. -/
theorem splitInto_idem {line : Bytes} {d : Byte} {buf w : List Bytes}
    (h : splitInto line d buf = some w) : splitInto line d w = some w := by
  simp only [splitInto] at h ⊢
  split at h
  · exact absurd h (by simp)
  · next fin hfc =>
    split at h
    · next hle =>
      injection h with h
      subst h
      have hdrop : ((splitSegs d line).1 ++
            fin :: buf.drop ((splitSegs d line).1.length + 1)).drop
              ((splitSegs d line).1.length + 1)
          = buf.drop ((splitSegs d line).1.length + 1) := by
        rw [show (splitSegs d line).1 ++ fin :: buf.drop ((splitSegs d line).1.length + 1)
              = ((splitSegs d line).1 ++ [fin]) ++
                  buf.drop ((splitSegs d line).1.length + 1) by simp]
        rw [show (splitSegs d line).1.length + 1
              = ((splitSegs d line).1 ++ [fin]).length by simp]
        exact List.drop_left _ _
      rw [if_pos (by simp), hdrop]
    · simp at h

/-- A successful `lazyFinish` returns the row it was given, and that row's
first column does not begin with `"#close"`. -/
theorem lazyFinish_ok {r : LazyReader} {h : Header} {row : List Bytes}
    {rec : LazyRecord} {r' : LazyReader}
    (hf : lazyFinish r h row = (.ok rec, r')) :
    rec.row = row ∧ rec.header = h ∧ r' = r ∧
      ∃ r0, row.head? = some r0 ∧ ¬ hasPrefix r0 (bs "#close") := by
  unfold lazyFinish at hf
  cases hr0 : row.head? with
  | none => rw [hr0] at hf; simp at hf
  | some r0 =>
    rw [hr0] at hf
    dsimp only at hf
    by_cases hcl : hasPrefix r0 (bs "#close")
    · rw [if_pos hcl] at hf; simp at hf
    · rw [if_neg hcl] at hf
      simp only [Prod.mk.injEq, Except.ok.injEq] at hf
      obtain ⟨hrec, hr'⟩ := hf
      subst hrec
      subst hr'
      exact ⟨rfl, rfl, rfl, r0, rfl, hcl⟩

/-- Re-reading the line just consumed (same position, post-read parser
state) reproduces the same row. -/
theorem Parser.reread {p : Parser} {row : List Bytes} {p' : Parser}
    (h : p.Read = (.ok row, p')) :
    (({ p' with pos := p.pos } : Parser).Read).1 = .ok row := by
  rw [Parser.Read_ok_iff] at h
  obtain ⟨hNL, hsp, hp'⟩ := h
  subst hp'
  rw [Parser.Read]
  dsimp only
  rw [if_pos hNL]
  have hnn : (if p.n = 0 then countByte (takeLine (p.data.drop p.pos)) p.delimiter + 1
      else p.n) ≠ 0 := by
    by_cases hn : p.n = 0
    · rw [if_pos hn]; omega
    · rw [if_neg hn]; exact hn
  rw [if_neg hnn, if_neg hnn, splitInto_idem hsp]

/-- Characterization of a successful `readHeaderLoop` run started with a
cleared latch and a synchronized offset: the loop preserves the stream
identity, keeps `offset = pos`, leaves the latch cleared, and ends with
`Length` naming the start of the buffered first data row — whose fresh
split is the saved current row. -/
theorem readHeaderLoop_ok_spec (kt : Option (Bytes → Bytes)) :
    ∀ (fuel : Nat) (h0 : Header) (p : Parser),
      p.data.length - p.pos < fuel → p.n = 0 → p.offset = p.pos →
      ∀ hh p2, readHeaderLoop kt h0 p fuel = .ok (hh, p2) →
        p2.data = p.data ∧ p2.delimiter = p.delimiter ∧ p2.fh = p.fh ∧
        p2.n = 0 ∧ p2.offset = p2.pos ∧ p.pos ≤ hh.Length ∧
        (takeLine (p.data.drop hh.Length)).getLast? = some NL ∧
        p2.pos = hh.Length + (takeLine (p.data.drop hh.Length)).length ∧
        splitInto (takeLine (p.data.drop hh.Length)) p.delimiter
          (List.replicate (countByte (takeLine (p.data.drop hh.Length)) p.delimiter + 1)
            ([] : Bytes)) = some p2.row := by
  intro fuel
  induction fuel with
  | zero => intro h0 p hfuel; omega
  | succ fuel ih =>
    intro h0 p hfuel hn hoff hh p2 hloop
    rw [readHeaderLoop] at hloop
    rcases hp : p.Read with ⟨res, p'⟩
    rw [hp] at hloop
    cases res with
    | error e => simp at hloop
    | ok row =>
      dsimp only at hloop
      cases hr0 : row.head? with
      | none => rw [hr0] at hloop; simp at hloop
      | some r0 =>
        rw [hr0] at hloop
        dsimp only at hloop
        obtain ⟨hdata, hlt, hle, hdel, hfh, hrow⟩ := Parser.Read_ok_state hp
        obtain ⟨hNL, hsp, hp'⟩ := (Parser.Read_ok_iff p row p').mp hp
        by_cases hdir : hasPrefix r0 (bs "#")
        · rw [if_neg (by simpa using hdir)] at hloop
          cases had : applyDirective kt { h0 with Length := p.offset } row r0 with
          | error e => rw [had] at hloop; simp at hloop
          | ok h2 =>
            rw [had] at hloop
            dsimp only at hloop
            have hres := ih h2 (p'.ResetRow)
              (by simp only [Parser.ResetRow]; rw [hdata]; omega)
              rfl
              (by simp only [Parser.ResetRow]; rw [hp']; dsimp only; omega)
              hh p2 hloop
            simp only [Parser.ResetRow] at hres
            obtain ⟨c1, c2, c3, c4, c5, c6, c7, c8, c9⟩ := hres
            rw [hdata] at c1 c7 c8 c9
            rw [hdel] at c2 c9
            rw [hfh] at c3
            refine ⟨c1, c2, c3, c4, c5, by omega, c7, c8, c9⟩
        · rw [if_pos (by simpa using hdir)] at hloop
          simp only [Prod.mk.injEq, Except.ok.injEq] at hloop
          obtain ⟨hhh, hpp⟩ := hloop
          subst hhh
          subst hpp
          have hLen : ({ h0 with Length := p.offset } : Header).Length = p.pos := by
            dsimp only
            exact hoff
          rw [hp']
          simp only [Parser.ResetRow]
          rw [hoff]
          refine ⟨trivial, trivial, trivial, trivial, rfl, le_refl _, hNL, rfl, ?_⟩
          rw [if_pos hn] at hsp
          exact hsp

/-- Reading after repositioning a parser to `q`: if the line at `q` splits
(under the current latch and buffer) to `w`, the read returns `w`. -/
theorem Parser.read_at (p : Parser) (w : List Bytes)
    (hNL : (takeLine (p.data.drop p.pos)).getLast? = some NL)
    (hsp : splitInto (takeLine (p.data.drop p.pos)) p.delimiter
        (if p.n = 0 then
            List.replicate (countByte (takeLine (p.data.drop p.pos)) p.delimiter + 1)
              ([] : Bytes)
          else p.row) = some w) :
    (p.Read).1 = .ok w := by
  rw [Parser.Read]
  dsimp only
  rw [if_pos hNL, hsp]

/-- Iterated successful reads of the lazy reader. -/
def lazyReadRun (r : LazyReader) : Nat → Except Err LazyReader
  | 0 => .ok r
  | k + 1 =>
    match r.Read with
    | (.ok _, r') => lazyReadRun r' k
    | (.error e, _) => .error e

/-- Invariant of every reachable state of a fresh lazy seekable reader over
`data`: the parser holds the stream with its byte offset synchronized to
the stream position, the delimiter is the tab the readers always use, and
before the header bootstrap the column-count latch is clear. -/
def LazyInv (data : Bytes) (r : LazyReader) : Prop :=
  r.parser.data = data ∧ r.parser.offset = r.parser.pos ∧
  r.parser.delimiter = TAB ∧ (r.header = none → r.parser.n = 0)

/-- What one successful lazy `Read` guarantees: the invariant is preserved,
the header is established, the returned record's row is the parser's saved
row, `recordOffset` names the position where the record's line starts, and
re-splitting that line (fresh for the bootstrap read, with the latched
buffer otherwise) reproduces the saved row. -/
theorem lazyRead_ok_spec {data : Bytes} {r : LazyReader} {rec : LazyRecord}
    {r' : LazyReader} (hInv : LazyInv data r) (h : r.Read = (.ok rec, r')) :
    LazyInv data r' ∧ (∃ hh, r'.header = some hh) ∧
    rec.row = r'.parser.row ∧
    (takeLine (data.drop r'.recordOffset)).getLast? = some NL ∧
    (∃ r0, rec.row.head? = some r0 ∧ ¬ hasPrefix r0 (bs "#close")) ∧
    ((r'.parser.n = 0 ∧
        splitInto (takeLine (data.drop r'.recordOffset)) TAB
          (List.replicate
            (countByte (takeLine (data.drop r'.recordOffset)) TAB + 1) ([] : Bytes))
          = some r'.parser.row) ∨
      (r'.parser.n ≠ 0 ∧
        splitInto (takeLine (data.drop r'.recordOffset)) TAB r'.parser.row
          = some r'.parser.row)) := by
  obtain ⟨hdata, hoffpos, hdel, hn0⟩ := hInv
  unfold LazyReader.Read at h
  cases hhd : r.header with
  | none =>
    rw [hhd] at h
    dsimp only at h
    cases hrh : readHeader r.parser none with
    | error e => rw [hrh] at h; simp at h
    | ok hp2 =>
      rcases hp2 with ⟨hH, p2⟩
      rw [hrh] at h
      dsimp only at h
      obtain ⟨hrow, hhead, hre, r0, hr0, hcl⟩ := lazyFinish_ok h
      unfold readHeader at hrh
      have hfuel : r.parser.data.length - r.parser.pos
          < r.parser.data.length + 1 - r.parser.pos := by
        rcases Nat.lt_or_ge r.parser.data.length r.parser.pos with hx | hx
        · exfalso
          rw [show r.parser.data.length + 1 - r.parser.pos = 0 by omega] at hrh
          rw [readHeaderLoop] at hrh
          exact absurd hrh (by simp)
        · omega
      obtain ⟨c1, c2, c3, c4, c5, c6, c7, c8, c9⟩ :=
        readHeaderLoop_ok_spec none _ {} r.parser hfuel (hn0 hhd) hoffpos hH p2 hrh
      subst hre
      dsimp only
      rw [hdata] at c1 c7 c9
      rw [hdel] at c2 c9
      refine ⟨⟨c1, c5, c2, fun hx => absurd hx (by simp)⟩, ⟨hH, rfl⟩, hrow, c7,
        ⟨r0, ?_, hcl⟩, .inl ⟨c4, c9⟩⟩
      rw [hrow]
      exact hr0
  | some hH =>
    rw [hhd] at h
    dsimp only at h
    rcases hp : r.parser.Read with ⟨res, p'⟩
    rw [hp] at h
    cases res with
    | error e => simp at h
    | ok row =>
      dsimp only at h
      obtain ⟨hrow, hhead, hre, r0, hr0, hcl⟩ := lazyFinish_ok h
      obtain ⟨hNL, hsp, hp'⟩ := (Parser.Read_ok_iff r.parser row p').mp hp
      subst hre
      dsimp only
      have hnn : p'.n ≠ 0 := by
        rw [hp']
        dsimp only
        by_cases hn : r.parser.n = 0
        · rw [if_pos hn]; omega
        · rw [if_neg hn]; exact hn
      have hprow : p'.row = row := by rw [hp']
      have hdata' : p'.data = data := by rw [hp']; exact hdata
      have hoffpos' : p'.offset = p'.pos := by
        rw [hp']
        dsimp only
        rw [hoffpos]
      have hdel' : p'.delimiter = TAB := by rw [hp']; exact hdel
      have hidem : splitInto (takeLine (data.drop r.parser.offset)) TAB p'.row
          = some p'.row := by
        rw [hprow, hoffpos, ← hdel, ← hdata]
        exact splitInto_idem hsp
      refine ⟨⟨hdata', hoffpos', hdel', fun hx => absurd hx (by simp)⟩,
        ⟨hH, rfl⟩, by rw [hrow, hprow], ?_, ⟨r0, ?_, hcl⟩, .inr ⟨hnn, hidem⟩⟩
      · rw [hoffpos, ← hdata]
        exact hNL
      · rw [hrow]
        exact hr0

theorem lazyInv_new (data : Bytes) : LazyInv data (NewLazySeekableReader data) :=
  ⟨rfl, rfl, rfl, fun _ => rfl⟩

theorem lazyReadRun_inv {data : Bytes} (k : Nat) :
    ∀ {r r1 : LazyReader}, LazyInv data r → lazyReadRun r k = .ok r1 →
      LazyInv data r1 := by
  induction k with
  | zero =>
    intro r r1 hInv h
    unfold lazyReadRun at h
    injection h with h2
    subst h2
    exact hInv
  | succ k ih =>
    intro r r1 hInv h
    unfold lazyReadRun at h
    rcases hr : r.Read with ⟨res, r'⟩
    rw [hr] at h
    cases res with
    | error e => simp at h
    | ok rec =>
      dsimp only at h
      exact ih (lazyRead_ok_spec hInv hr).1 h

/-- C4: on a seekable stream, after any run of successful lazy reads, reading
a record, seeking to that record's reported `Offset`, and reading again
yields a row whose raw byte columns are identical, column for column,
to the originally read record's. -/
theorem seek_reread_identical (data : Bytes) (k : Nat)
    {r1 r2 r3 r4 : LazyReader} {rec rec' : LazyRecord}
    (hrun : lazyReadRun (NewLazySeekableReader data) k = .ok r1)
    (hread : r1.Read = (.ok rec, r2))
    (hseek : r2.Seek r2.Offset = .ok r3)
    (hreread : r3.Read = (.ok rec', r4)) :
    rec'.row = rec.row := by
  have hInv1 : LazyInv data r1 := lazyReadRun_inv k (lazyInv_new data) hrun
  obtain ⟨hInv2, ⟨hh, hhd2⟩, hrowr, hNL, hfoot, hsplit⟩ := lazyRead_ok_spec hInv1 hread
  obtain ⟨hdata2, hoff2, hdel2, _⟩ := hInv2
  unfold LazyReader.Seek at hseek
  unfold Parser.Seek LazyReader.Offset at hseek
  cases hfh : r2.parser.fh with
  | false =>
    rw [hfh] at hseek
    simp [Except.map] at hseek
  | true =>
    rw [hfh] at hseek
    simp only [eq_self_iff_true, if_true] at hseek
    dsimp only [Except.map] at hseek
    injection hseek with h3
    subst h3
    unfold LazyReader.Read at hreread
    dsimp only at hreread
    rw [hhd2] at hreread
    dsimp only at hreread
    rcases hq : (({ delimiter := r2.parser.delimiter, data := r2.parser.data, pos := r2.recordOffset, fh := true, row := r2.parser.row, n := r2.parser.n, offset := r2.parser.offset } : Parser)).Read with ⟨res3, p3'⟩
    have hfst : res3 = .ok r2.parser.row := by
      have h0 : ((({ delimiter := r2.parser.delimiter, data := r2.parser.data, pos := r2.recordOffset, fh := true, row := r2.parser.row, n := r2.parser.n, offset := r2.parser.offset } : Parser)).Read).1 = .ok r2.parser.row := by
        apply Parser.read_at
        · dsimp only
          rw [hdata2]
          exact hNL
        · dsimp only
          rw [hdata2, hdel2]
          rcases hsplit with ⟨hn0, hs⟩ | ⟨hn0, hs⟩
          · rw [if_pos hn0]
            exact hs
          · rw [if_neg hn0]
            exact hs
      rw [hq] at h0
      exact h0
    subst hfst
    rw [hq] at hreread
    dsimp only at hreread
    obtain ⟨hrow', hhead', hre', r0', hr0', hcl'⟩ := lazyFinish_ok hreread
    rw [hrow', hrowr]

/-- A concrete seekable stream: a `#fields` directive, two data rows. -/
def c4data : Bytes := bs "#fields\ta\tb\nx\ty\nu\tv\n"

/-- The header the bootstrap read of `c4data` produces. -/
def c4hH : Header := { Fields := [bs "a", bs "b"], Length := 12 }

/-- The lazy reader over `c4data` after one successful read. -/
def c4r1 : LazyReader :=
  { parser := { delimiter := TAB, data := c4data, pos := 16, fh := true, row := [bs "x", bs "y"], n := 0, offset := 16 }, header := some c4hH, recordOffset := 12 }

/-- The record the second read of `c4data` returns. -/
def c4rec : LazyRecord := { header := c4hH, row := [bs "u", bs "v"] }

/-- The lazy reader over `c4data` after the second read. -/
def c4r2 : LazyReader :=
  { parser := { delimiter := TAB, data := c4data, pos := 20, fh := true, row := [bs "u", bs "v"], n := 2, offset := 20 }, header := some c4hH, recordOffset := 16 }

/-- `c4r2` seeked back to the second record's reported offset. -/
def c4r3 : LazyReader :=
  { parser := { delimiter := TAB, data := c4data, pos := 16, fh := true, row := [bs "u", bs "v"], n := 2, offset := 20 }, header := some c4hH, recordOffset := 16 }

/-- The lazy reader over `c4data` after the re-read. -/
def c4r4 : LazyReader :=
  { parser := { delimiter := TAB, data := c4data, pos := 20, fh := true, row := [bs "u", bs "v"], n := 2, offset := 24 }, header := some c4hH, recordOffset := 20 }

theorem seek_reread_identical_witness :
    lazyReadRun (NewLazySeekableReader c4data) 1 = .ok c4r1 ∧
    c4r1.Read = (.ok c4rec, c4r2) ∧
    c4r2.Seek c4r2.Offset = .ok c4r3 ∧
    c4r3.Read = (.ok c4rec, c4r4) ∧
    c4rec.row = c4rec.row :=
  ⟨rfl, rfl, rfl, rfl,
    seek_reread_identical c4data 1 rfl rfl rfl rfl⟩

/-! ## Offset accounting (claim C5) -/

/-- The byte offset at which the `k`-th data row's line starts, computed
from the stream alone: the header block's length, plus the lengths of the
`k` newline-delimited lines that follow it. -/
def nthRowStart (data : Bytes) (hdrLen : Nat) : Nat → Nat
  | 0 => hdrLen
  | k + 1 =>
    nthRowStart data hdrLen k +
      (takeLine (data.drop (nthRowStart data hdrLen k))).length

/-- Iterated successful reads of the eager reader. -/
def readRun (r : Reader) : Nat → Except Err Reader
  | 0 => .ok r
  | k + 1 =>
    match r.Read with
    | (.ok _, r') => readRun r' k
    | (.error e, _) => .error e

/-- Invariant of every reachable state of a fresh eager reader over `data`
that has never been seeked: the parser's cumulative byte counter `offset`
coincides with its stream position, and before the header bootstrap the
column-count latch is clear. -/
def ReaderInv (data : Bytes) (r : Reader) : Prop :=
  r.parser.data = data ∧ r.parser.offset = r.parser.pos ∧
  (r.header = none → r.parser.n = 0)

theorem readFinish_ok {r : Reader} {h : Header} {row : List Bytes}
    {rec : Record} {r' : Reader}
    (hf : readFinish r h row = (.ok rec, r')) : r' = r := by
  unfold readFinish at hf
  cases hr0 : row.head? with
  | none => rw [hr0] at hf; simp at hf
  | some r0 =>
    rw [hr0] at hf
    dsimp only at hf
    by_cases hcl : hasPrefix r0 (bs "#close")
    · rw [if_pos hcl] at hf; simp at hf
    · rw [if_neg hcl] at hf
      cases hcv : convertLoop h r.omitEmpty row 0 h.Fields with
      | error e => rw [hcv] at hf; simp at hf
      | ok rec2 =>
        rw [hcv] at hf
        simp only [Prod.mk.injEq, Except.ok.injEq] at hf
        exact hf.2.symm

/-- What one successful eager `Read` guarantees about offsets: the invariant
is preserved, a bootstrap read reports the header block's length, a later
read reports the position the parser was at before the read, and in both
cases the stream position afterwards sits exactly one line past the
reported offset. -/
theorem reader_read_offsets {data : Bytes} {r : Reader} {rec : Record}
    {r' : Reader} (hInv : ReaderInv data r) (h : r.Read = (.ok rec, r')) :
    ReaderInv data r' ∧
    (r.header = none → ∃ hh, r'.header = some hh ∧ r'.recordOffset = hh.Length) ∧
    (r.header ≠ none → r'.header = r.header ∧ r'.recordOffset = r.parser.pos) ∧
    r'.parser.pos = r'.recordOffset +
      (takeLine (data.drop r'.recordOffset)).length := by
  obtain ⟨hdata, hoffpos, hn0⟩ := hInv
  unfold Reader.Read at h
  cases hhd : r.header with
  | none =>
    rw [hhd] at h
    dsimp only at h
    cases hrh : readHeader r.parser r.keyTransform with
    | error e => rw [hrh] at h; simp at h
    | ok hp2 =>
      rcases hp2 with ⟨hH, p2⟩
      rw [hrh] at h
      dsimp only at h
      have hre := readFinish_ok h
      unfold readHeader at hrh
      have hfuel : r.parser.data.length - r.parser.pos
          < r.parser.data.length + 1 - r.parser.pos := by
        rcases Nat.lt_or_ge r.parser.data.length r.parser.pos with hx | hx
        · exfalso
          rw [show r.parser.data.length + 1 - r.parser.pos = 0 by omega] at hrh
          rw [readHeaderLoop] at hrh
          exact absurd hrh (by simp)
        · omega
      obtain ⟨c1, c2, c3, c4, c5, c6, c7, c8, c9⟩ :=
        readHeaderLoop_ok_spec r.keyTransform _ {} r.parser hfuel (hn0 hhd)
          hoffpos hH p2 hrh
      subst hre
      dsimp only
      rw [hdata] at c1 c8
      refine ⟨⟨c1, c5, fun hx => absurd hx (by simp)⟩,
        fun _ => ⟨hH, rfl, rfl⟩, fun hne => absurd rfl hne, c8⟩
  | some hH =>
    rw [hhd] at h
    dsimp only at h
    rcases hp : r.parser.Read with ⟨res, p'⟩
    rw [hp] at h
    cases res with
    | error e => simp at h
    | ok row =>
      dsimp only at h
      have hre := readFinish_ok h
      obtain ⟨hNL, hsp, hp'⟩ := (Parser.Read_ok_iff r.parser row p').mp hp
      subst hre
      dsimp only
      have hdata' : p'.data = data := by rw [hp']; exact hdata
      have hoffpos' : p'.offset = p'.pos := by
        rw [hp']
        dsimp only
        rw [hoffpos]
      have hstep : p'.pos = r.parser.pos +
          (takeLine (r.parser.data.drop r.parser.pos)).length := by
        rw [hp']
      refine ⟨⟨hdata', hoffpos', fun hx => absurd hx (by simp)⟩,
        fun hx => absurd hx (by simp), fun _ => ⟨rfl, hoffpos⟩, ?_⟩
      rw [hstep, hoffpos, hdata]

/-- Runs of the eager reader advance the stream position from any row start
to the row start the corresponding number of rows later, preserving the
invariant and the header. -/
theorem readRun_inv_pos {data : Bytes} (k : Nat) :
    ∀ {r r1 : Reader} {hh : Header} (j : Nat), ReaderInv data r →
      r.header = some hh → r.parser.pos = nthRowStart data hh.Length j →
      readRun r k = .ok r1 →
      ReaderInv data r1 ∧ r1.header = some hh ∧
      r1.parser.pos = nthRowStart data hh.Length (j + k) := by
  induction k with
  | zero =>
    intro r r1 hh j hInv hhd hpos h
    unfold readRun at h
    injection h with h2
    subst h2
    exact ⟨hInv, hhd, hpos⟩
  | succ k ih =>
    intro r r1 hh j hInv hhd hpos h
    unfold readRun at h
    rcases hr : r.Read with ⟨res, r'⟩
    rw [hr] at h
    cases res with
    | error e => simp at h
    | ok rec =>
      dsimp only at h
      obtain ⟨hInv', h2, h3, h4⟩ := reader_read_offsets hInv hr
      obtain ⟨hhd', hro⟩ := h3 (by rw [hhd]; simp)
      have hpos' : r'.parser.pos = nthRowStart data hh.Length (j + 1) := by
        rw [h4, hro, hpos]
        rfl
      obtain ⟨a, b, c⟩ := ih (j + 1) hInv' (hhd'.trans hhd) hpos' h
      refine ⟨a, b, ?_⟩
      rw [show j + (k + 1) = j + 1 + k from by omega]
      exact c

/-- C5: after any run of `k` successful reads of a fresh (never-seeked)
eager reader followed by one more successful read, `Offset` reports the
byte offset at which the returned record's row begins: the header block's
length plus the lengths of the `k` data-row lines consumed before it; in
particular for the first data row (`k = 0`) it reports `Header.Length`. -/
theorem offset_reports_row_start (data : Bytes) (k : Nat)
    {r1 r' : Reader} {rec : Record}
    (hrun : readRun (NewReader data) k = .ok r1)
    (hread : r1.Read = (.ok rec, r')) :
    ∃ hh, r'.header = some hh ∧
      r'.Offset = nthRowStart data hh.Length k ∧
      (k = 0 → r'.Offset = hh.Length) := by
  have hInv0 : ReaderInv data (NewReader data) := ⟨rfl, rfl, fun _ => rfl⟩
  cases k with
  | zero =>
    unfold readRun at hrun
    injection hrun with h2
    subst h2
    obtain ⟨hInv', h2', h3, h4⟩ := reader_read_offsets hInv0 hread
    obtain ⟨hh, hhd', hro⟩ := h2' rfl
    refine ⟨hh, hhd', ?_, fun _ => ?_⟩
    · rw [Reader.Offset, hro]
      rfl
    · rw [Reader.Offset, hro]
  | succ j =>
    unfold readRun at hrun
    rcases hr : (NewReader data).Read with ⟨res0, r0'⟩
    rw [hr] at hrun
    cases res0 with
    | error e => simp at hrun
    | ok rec0 =>
      dsimp only at hrun
      obtain ⟨hInv1, h2', h3, h4⟩ := reader_read_offsets hInv0 hr
      obtain ⟨hh, hhd1, hro1⟩ := h2' rfl
      have hpos1 : r0'.parser.pos = nthRowStart data hh.Length 1 := by
        rw [h4, hro1]
        rfl
      obtain ⟨hInv2, hhd2, hpos2⟩ := readRun_inv_pos j 1 hInv1 hhd1 hpos1 hrun
      obtain ⟨hInv3, h2'', h3', h4'⟩ := reader_read_offsets hInv2 hread
      obtain ⟨hhd3, hro3⟩ := h3' (by rw [hhd2]; simp)
      refine ⟨hh, hhd3.trans hhd2, ?_, fun h0 => absurd h0 (by omega)⟩
      rw [Reader.Offset, hro3, hpos2,
        show 1 + j = j + 1 from by omega]

/-- A concrete stream with a typed header and two one-column data rows. -/
def c5data : Bytes := bs "#fields\ta\n#types\tstring\np\nq\n"

/-- The header the bootstrap read of `c5data` produces;
its block spans the first 24 bytes of the stream. -/
def c5hh : Header :=
  { Fields := [bs "a"], Types := [{ dtype := .String, IsContainer := false }], Length := 24 }

/-- The eager reader over `c5data` after one successful read. -/
def c5e1 : Reader :=
  { parser := { delimiter := TAB, data := c5data, pos := 26, fh := false, row := [bs "p"], n := 0, offset := 26 }, header := some c5hh, keyTransform := none, omitEmpty := false, recordOffset := 24 }

/-- The record the second read of `c5data` returns. -/
def c5erec : Record := [(bs "a", some (Value.vstr (bs "q")))]

/-- The eager reader over `c5data` after the second read. -/
def c5e2 : Reader :=
  { parser := { delimiter := TAB, data := c5data, pos := 28, fh := false, row := [bs "q"], n := 1, offset := 28 }, header := some c5hh, keyTransform := none, omitEmpty := false, recordOffset := 26 }

theorem offset_reports_row_start_witness :
    readRun (NewReader c5data) 1 = .ok c5e1 ∧
    c5e1.Read = (.ok c5erec, c5e2) ∧
    (∃ hh, c5e2.header = some hh ∧
      c5e2.Offset = nthRowStart c5data hh.Length 1 ∧
      (1 = 0 → c5e2.Offset = hh.Length)) :=
  ⟨rfl, rfl, offset_reports_row_start c5data 1 rfl rfl⟩

/-- The seekable eager reader over `c5data` after two successful reads. -/
def c5rA : Reader :=
  { parser := { delimiter := TAB, data := c5data, pos := 28, fh := true, row := [bs "q"], n := 1, offset := 28 }, header := some c5hh, keyTransform := none, omitEmpty := false, recordOffset := 26 }

/-- `c5rA` seeked back to the second record's reported offset 26. -/
def c5rB : Reader :=
  { parser := { delimiter := TAB, data := c5data, pos := 26, fh := true, row := [bs "q"], n := 1, offset := 28 }, header := some c5hh, keyTransform := none, omitEmpty := false, recordOffset := 26 }

/-- The seekable eager reader over `c5data` after the post-seek re-read. -/
def c5rC : Reader :=
  { parser := { delimiter := TAB, data := c5data, pos := 28, fh := true, row := [bs "q"], n := 1, offset := 30 }, header := some c5hh, keyTransform := none, omitEmpty := false, recordOffset := 28 }

/-- C5 counterexample: `Offset` does not always report the byte offset at
which the returned record's row begins.  On `c5data`, the second record's
row is the line at byte 26 (correctly reported before any seek); after
`Seek(26)` the re-read returns that same row — the line at byte 26,
re-parsed from there — yet `Offset` reports 28, because `Seek` repositions
the stream without adjusting the parser's cumulative byte counter. -/
theorem offset_after_seek_counterexample :
    readRun (NewSeekableReader c5data) 2 = .ok c5rA ∧
    c5rA.Offset = 26 ∧
    takeLine (c5data.drop 26) = bs "q\n" ∧
    c5rA.Seek 26 = .ok c5rB ∧
    c5rB.Read = (.ok [(bs "a", some (Value.vstr (bs "q")))], c5rC) ∧
    splitInto (takeLine (c5data.drop 26)) TAB (List.replicate 1 ([] : Bytes))
      = some [bs "q"] ∧
    c5rC.Offset = 28 ∧ (28 : Nat) ≠ 26 :=
  ⟨rfl, rfl, rfl, rfl, rfl, rfl, rfl, by decide⟩

end ZeekTsv
